import Mathlib

/-!
Verification of the `tafra` columnar-table engine (`src/tafra.py`) against its
natural-language specification.

The Python module stores a table as an ordered mapping from column name to a
1-dimensional numpy array, with a parallel mapping of dtype tags.  We embed the
data model shallowly: arrays become `List Val`, the ordered mappings become
association lists with Python-`dict` update semantics, and the numpy masked
reads/writes used by the grouping engine become explicit list combinators.
-/

/-- Scalar cell values.  The repository's examples use integer and string
columns; equality on values mirrors numpy elementwise `==`. -/
inductive Val where
  | i : Int → Val
  | s : String → Val
deriving DecidableEq, Repr

/-- Abstract error kinds, following the spec's taxonomy (§7). -/
inductive Err where
  | rowCount
  | typeErr
  | keyErr
  | indexErr
deriving DecidableEq, Repr

/-- Python `dict` assignment `d[k] = v`: replace the value of an existing key
in place (keeping its position), otherwise append the new key at the end. -/
def dictSet {α : Type} : List (String × α) → String → α → List (String × α)
  | [], k, v => [(k, v)]
  | (k', v') :: rest, k, v =>
      if k' = k then (k', v) :: rest else (k', v') :: dictSet rest k v

/-- Python `d[k] = f(d[k])` for an existing key: modify the first binding of
`k`, leave the dict unchanged if `k` is absent. -/
def dictModify {α : Type} : List (String × α) → String → (α → α) → List (String × α)
  | [], _, _ => []
  | (k', v) :: rest, k, f =>
      if k' = k then (k', f v) :: rest else (k', v) :: dictModify rest k f

/-- First-match lookup, the semantics of reading a Python `dict` built by
`dictSet` (which never duplicates keys). -/
def dictGet? {α : Type} : List (String × α) → String → Option α
  | [], _ => none
  | (k', v) :: rest, k => if k' = k then some v else dictGet? rest k

/-- Shallow embedding of the `Tafra` dataclass: the `_data` mapping of column
name to array.  (The `_dtypes` mapping is irrelevant to the row/grouping
claims; the spec-modelled `union` below carries dtype tags explicitly.) -/
structure Tafra where
  data : List (String × List Val)
deriving DecidableEq, Repr

namespace Tafra

/-- `Tafra.rows`: length of the first column's array, 0 for an empty table
(mirrors `len(next(iter(self._data.values())))`). -/
def rows (t : Tafra) : Nat :=
  match t.data with
  | [] => 0
  | (_, v) :: _ => v.length

/-- Read a column's array; missing columns read as `[]` (the callers below
always validate existence first, as the Python code does). -/
def col (t : Tafra) (c : String) : List Val :=
  (dictGet? t.data c).getD []

/-- Whether a column name is present (`col in tafra.columns`). -/
def hasCol (t : Tafra) (c : String) : Bool :=
  (dictGet? t.data c).isSome

end Tafra

/-- The row-count consistency check of `Tafra.__post_init__`: the first
column fixes `rows`, every later column must have the same length. -/
def consistentRows : List (String × List Val) → Bool
  | [] => true
  | (_, v) :: rest => rest.all (fun p => p.2.length == v.length)

/-- Construction (`Tafra(...)` running `__post_init__`): fails with the
row-count error when the supplied arrays disagree in length. -/
def mkTafra (m : List (String × List Val)) : Except Err Tafra :=
  if consistentRows m then .ok ⟨m⟩ else .error .rowCount

/-- Column assignment `tafra[c] = v` (`__setitem__` via `_validate`): a 1-D
value must have exactly `self.rows` elements, otherwise the row-count error
is raised before any mutation. -/
def setItem (t : Tafra) (c : String) (v : List Val) : Except Err Tafra :=
  if v.length = t.rows then .ok ⟨dictSet t.data c v⟩ else .error .rowCount

/-- The I2 invariant: every column array's length equals `rows`. -/
def Wf (t : Tafra) : Prop :=
  ∀ p ∈ t.data, (p.2 : List Val).length = t.rows

theorem consistentRows_lengths {m : List (String × List Val)}
    (h : consistentRows m = true) :
    ∀ p ∈ m, (p.2 : List Val).length = (Tafra.mk m).rows := by
  intro p hp
  cases m with
  | nil => cases hp
  | cons q rest =>
      simp only [consistentRows, List.all_eq_true] at h
      cases hp with
      | head => rfl
      | tail _ hp' =>
          have := h p hp'
          simpa [Tafra.rows, Nat.beq_eq_true_eq] using this

theorem mkTafra_wf {m : List (String × List Val)} {t : Tafra}
    (h : mkTafra m = .ok t) : Wf t := by
  unfold mkTafra at h
  by_cases hc : consistentRows m = true
  · rw [if_pos hc] at h
    cases h
    exact consistentRows_lengths hc
  · rw [if_neg hc] at h
    cases h

theorem mkTafra_fails_of_mismatch {m : List (String × List Val)}
    {p q : String × List Val} (hp : p ∈ m) (hq : q ∈ m)
    (hne : p.2.length ≠ q.2.length) : mkTafra m = .error .rowCount := by
  unfold mkTafra
  rw [if_neg]
  intro hc
  have h1 := consistentRows_lengths hc p hp
  have h2 := consistentRows_lengths hc q hq
  exact hne (h1.trans h2.symm)

/-- C1: the row-count invariant and its enforcement.  (i) A successfully
constructed `Tafra` has every column array of length `rows`, and an empty
table has `rows = 0`; (ii) construction from a mapping containing two arrays
of different lengths fails with the row-count error; (iii) assigning a column
whose length differs from the current row count fails with the row-count
error. -/
theorem tafra_row_count_invariant :
    (∀ (m : List (String × List Val)) (t : Tafra), mkTafra m = .ok t →
        (∀ p ∈ t.data, (p.2 : List Val).length = t.rows) ∧
        (t.data = [] → t.rows = 0)) ∧
    (∀ (m : List (String × List Val)) (p q : String × List Val),
        p ∈ m → q ∈ m → p.2.length ≠ q.2.length →
        mkTafra m = .error .rowCount) ∧
    (∀ (t : Tafra) (c : String) (v : List Val),
        v.length ≠ t.rows → setItem t c v = .error .rowCount) := by
  refine ⟨?_, ?_, ?_⟩
  · intro m t h
    refine ⟨mkTafra_wf h, ?_⟩
    intro hd
    simp [Tafra.rows, hd]
  · intro m p q hp hq hne
    exact mkTafra_fails_of_mismatch hp hq hne
  · intro t c v hne
    unfold setItem
    rw [if_neg hne]

/-- Witness for C1 at concrete inputs. -/
theorem tafra_row_count_invariant_witness :
    ((∀ p ∈ (Tafra.mk [("x", [Val.i 1, Val.i 2])]).data,
        (p.2 : List Val).length = (Tafra.mk [("x", [Val.i 1, Val.i 2])]).rows) ∧
      ((Tafra.mk [("x", [Val.i 1, Val.i 2])]).data = [] →
        (Tafra.mk [("x", [Val.i 1, Val.i 2])]).rows = 0)) ∧
    mkTafra [("x", [Val.i 1, Val.i 2]), ("y", [Val.i 3])] = .error .rowCount ∧
    setItem (Tafra.mk [("x", [Val.i 1, Val.i 2])]) "x" [Val.i 7] =
      .error .rowCount := by
  refine ⟨?_, ?_, ?_⟩
  · exact tafra_row_count_invariant.1 [("x", [Val.i 1, Val.i 2])] _ rfl
  · exact tafra_row_count_invariant.2.1 _ ("x", [Val.i 1, Val.i 2])
      ("y", [Val.i 3]) (by simp) (by simp) (by decide)
  · exact tafra_row_count_invariant.2.2 _ "x" [Val.i 7] (by decide)

/-! ## Grouping engine (`AggMethod`, `GroupBy`, `Transform`, `IterateBy`) -/

/-- A normalized aggregation entry of `AggMethod._aggregation`:
`(result column name, reduction function, source column name)`. -/
abbrev AggT := String × (List Val → Val) × String

/-- The group key of row `i`: the tuple of group-by column values
(one component per column of `group_by`). -/
def keyAt (t : Tafra) (gb : List String) (i : Nat) : List Val :=
  gb.map (fun c => (t.col c).getD i (Val.i 0))

/-- `zip(*(tafra[col] for col in group_by))`: the per-row key tuples.  On a
validated `Tafra` every group-by column has length `rows`, so the zip yields
one tuple per row — and, crucially, `zip()` of zero columns is empty. -/
def groupKeys (t : Tafra) (gb : List String) : List (List Val) :=
  if gb.isEmpty then [] else (List.range t.rows).map (keyAt t gb)

/-- `OrderedDict.fromkeys`: one left-to-right scan keeping the keys not seen
before, i.e. deduplication in first-occurrence order. -/
def dedupFirstAux (seen : List (List Val)) : List (List Val) → List (List Val)
  | [] => []
  | k :: rest =>
      if k ∈ seen then dedupFirstAux seen rest
      else k :: dedupFirstAux (k :: seen) rest

/-- `OrderedDict.fromkeys`: deduplicate keeping first-occurrence order. -/
def dedupFirst (l : List (List Val)) : List (List Val) :=
  dedupFirstAux [] l

/-- `AggMethod.unique_groups`. -/
def uniqueGroups (t : Tafra) (gb : List String) : List (List Val) :=
  dedupFirst (groupKeys t gb)

/-- `AggMethod._validate`: every group-by column and every aggregation
source column must exist. -/
def aggValidate (t : Tafra) (gb : List String) (agg : List AggT) : Bool :=
  gb.all (t.hasCol ·) && agg.all (fun a => t.hasCol a.2.2)

/-- `np.full(tafra.rows, True)`. -/
def fullMask (n : Nat) : List Bool := List.replicate n true

/-- `tafra[col] == val`, numpy elementwise equality. -/
def colEqMask (t : Tafra) (c : String) (v : Val) : List Bool :=
  (t.col c).map (fun x => x == v)

/-- `which_rows &= mask`, numpy elementwise AND. -/
def andMask (a b : List Bool) : List Bool := a.zipWith and b

/-- The final row mask of one group: the AND over `zip(u, group_by_cols)` of
the per-column equality masks, starting from the all-true mask. -/
def groupMask (t : Tafra) (gb : List String) (u : List Val) : List Bool :=
  (u.zip gb).foldl (fun m vc => andMask m (colEqMask t vc.2 vc.1))
    (fullMask t.rows)

/-- `arr[mask]`: masked gather. -/
def maskGather (m : List Bool) (xs : List Val) : List Val :=
  (m.zip xs).filterMap (fun p => bif p.1 then some p.2 else none)

/-- `dst[mask] = src`: masked scatter, consuming `src` left to right at the
true positions of the mask. -/
def maskScatter : List Bool → List Val → List Val → List Val
  | true :: m, _ :: d, s :: src => s :: maskScatter m d src
  | true :: m, x :: d, [] => x :: maskScatter m d []
  | false :: m, x :: d, src => x :: maskScatter m d src
  | _, d, _ => d

/-- `dst[mask] = v`: masked fill with a broadcast scalar. -/
def maskScatterScalar (m : List Bool) (dst : List Val) (v : Val) : List Val :=
  m.zipWith (fun b d => bif b then v else d) dst

/-- `AggMethod.result_factory`: the Python dict comprehension over the pairs
`(col, col)` for group-by columns followed by `(rename, source)` for
aggregation entries; duplicate keys keep the first position with the later
allocation.  `alloc rename col` stands for the `np.empty`/`np.empty_like`
allocation for that entry (uninitialized contents). -/
def result_factory (gb : List String) (agg : List AggT)
    (alloc : String → String → List Val) : List (String × List Val) :=
  ((gb.map (fun c => (c, c))) ++ agg.map (fun a => (a.1, a.2.2))).foldl
    (fun d p => dictSet d p.1 (alloc p.1 p.2)) []

/-- One iteration of `GroupBy.apply`'s loop for group number `i` with key
`u`: build the mask while writing the key values at row `i` of each group-by
result column, then write each aggregation result at row `i`. -/
def groupByStep (t : Tafra) (gb : List String) (agg : List AggT)
    (res : List (String × List Val)) (i : Nat) (u : List Val) :
    List (String × List Val) :=
  let wr := (u.zip gb).foldl
    (fun (p : List Bool × List (String × List Val)) vc =>
      (andMask p.1 (colEqMask t vc.2 vc.1),
        dictModify p.2 vc.2 (fun arr => arr.set i vc.1)))
    (fullMask t.rows, res)
  agg.foldl
    (fun r a =>
      dictModify r a.1 (fun arr => arr.set i (a.2.1 (maskGather wr.1 (t.col a.2.2)))))
    wr.2

/-- `GroupBy.apply` after validation: allocate one `np.empty(len(unique))`
array per result column, then run the per-group loop. -/
def groupByRun (t : Tafra) (gb : List String) (agg : List AggT)
    (alloc : String → String → List Val) : Tafra :=
  let unique := uniqueGroups t gb
  let init := result_factory gb agg alloc
  ⟨(unique.enum).foldl (fun res iu => groupByStep t gb agg res iu.1 iu.2) init⟩

/-- `GroupBy.apply` (`tafra.group_by`): `_validate` first, `KeyError` on a
missing column, then the loop. -/
def groupByApply (t : Tafra) (gb : List String) (agg : List AggT)
    (alloc : String → String → List Val) : Except Err Tafra :=
  if aggValidate t gb agg then .ok (groupByRun t gb agg alloc) else .error .keyErr

/-- One conjunct of `Transform.apply`'s inner loop: extend the mask with this
column's equality test, then copy the currently-matching input rows of that
column into the result (`result[col][which_rows] = tafra[col][which_rows]`). -/
def transformFoldF (t : Tafra) (p : List Bool × List (String × List Val))
    (vc : Val × String) : List Bool × List (String × List Val) :=
  let w := andMask p.1 (colEqMask t vc.2 vc.1)
  (w, dictModify p.2 vc.2
    (fun arr => maskScatter w arr (maskGather w (t.col vc.2))))

/-- One iteration of `Transform.apply`'s loop for group key `u`: build the
mask incrementally, after each column's conjunct copying the matching input
rows of that column into the result, then broadcast each aggregation result
over the final mask. -/
def transformStep (t : Tafra) (gb : List String) (agg : List AggT)
    (res : List (String × List Val)) (u : List Val) :
    List (String × List Val) :=
  let wr := (u.zip gb).foldl (transformFoldF t) (fullMask t.rows, res)
  agg.foldl
    (fun r a =>
      dictModify r a.1
        (fun arr => maskScatterScalar wr.1 arr (a.2.1 (maskGather wr.1 (t.col a.2.2)))))
    wr.2

/-- `Transform.apply` after validation: allocate one
`np.empty_like(tafra[col])` array per result column, then run the loop. -/
def transformRun (t : Tafra) (gb : List String) (agg : List AggT)
    (alloc : String → String → List Val) : Tafra :=
  ⟨(uniqueGroups t gb).foldl (fun res u => transformStep t gb agg res u)
      (result_factory gb agg alloc)⟩

/-- `Transform.apply` (`tafra.transform`). -/
def transformApply (t : Tafra) (gb : List String) (agg : List AggT)
    (alloc : String → String → List Val) : Except Err Tafra :=
  if aggValidate t gb agg then .ok (transformRun t gb agg alloc)
  else .error .keyErr

/-- `Tafra._index` with a boolean mask: gather every column by the mask. -/
def tafraIndex (t : Tafra) (m : List Bool) : Tafra :=
  ⟨t.data.map (fun p => (p.1, maskGather m p.2))⟩

/-- `IterateBy.apply` after validation: for each unique group, in order,
yield `(group index, tafra[which_rows])`. -/
def iterateByRun (t : Tafra) (gb : List String) : List (Nat × Tafra) :=
  (uniqueGroups t gb).enum.map
    (fun iu => (iu.1, tafraIndex t (groupMask t gb iu.2)))

/-- `IterateBy.apply` (`tafra.iterate_by`). -/
def iterateByApply (t : Tafra) (gb : List String) :
    Except Err (List (Nat × Tafra)) :=
  if aggValidate t gb [] then .ok (iterateByRun t gb) else .error .keyErr

/-- The module's example table:
`x=[1..6], y=[one,two,one,two,one,two], z=[0,0,0,1,1,1]`. -/
def exampleTafra : Tafra :=
  ⟨[("x", [Val.i 1, Val.i 2, Val.i 3, Val.i 4, Val.i 5, Val.i 6]),
    ("y", [Val.s "one", Val.s "two", Val.s "one", Val.s "two",
           Val.s "one", Val.s "two"]),
    ("z", [Val.i 0, Val.i 0, Val.i 0, Val.i 1, Val.i 1, Val.i 1])]⟩

/-- Integer sum, the `sum` builtin applied to an integer column. -/
def sumVals (xs : List Val) : Val :=
  Val.i (xs.foldl (fun acc v => match v with | Val.i n => acc + n | _ => acc) 0)

/-- A concrete stand-in for the contents of an uninitialized numpy
allocation of length `n`. -/
def zeroAlloc (n : Nat) : String → String → List Val :=
  fun _ _ => List.replicate n (Val.i 0)

/-- A list of length 4 is an explicit 4-element list. -/
theorem exists_four {l : List Val} (h : l.length = 4) :
    ∃ a b c d : Val, l = [a, b, c, d] := by
  rcases l with _ | ⟨a, _ | ⟨b, _ | ⟨c, _ | ⟨d, _ | ⟨e, l⟩⟩⟩⟩⟩ <;> simp at h
  exact ⟨a, b, c, d, rfl⟩

/-- C3 (counterexample): on the module's example table,
`group_by(['y','z'], {'x': sum})` produces the `x` sums `4, 2, 10, 5` — not
the `3, 2, 9, 5` asserted by the spec. -/
theorem groupBy_example_claimed_sums_false :
    (groupByRun exampleTafra ["y", "z"] [("x", sumVals, "x")]
        (zeroAlloc 4)).col "x" = [Val.i 4, Val.i 2, Val.i 10, Val.i 5] ∧
    (groupByRun exampleTafra ["y", "z"] [("x", sumVals, "x")]
        (zeroAlloc 4)).col "x" ≠ [Val.i 3, Val.i 2, Val.i 9, Val.i 5] := by
  exact ⟨rfl, by decide⟩

/-- C3 (amended): on the example table, `group_by(['y','z'], {'x': sum})`
produces exactly 4 rows, whose groups are `(one,0),(two,0),(two,1),(one,1)`
in first-occurrence order and whose `x` values are the sums `4, 2, 10, 5` —
whatever the contents of the uninitialized `np.empty(len(unique))`
allocations. -/
theorem groupBy_example_sums (alloc : String → String → List Val)
    (h : ∀ r c, (alloc r c).length = 4) :
    groupByApply exampleTafra ["y", "z"] [("x", sumVals, "x")] alloc =
      .ok (Tafra.mk
        [("y", [Val.s "one", Val.s "two", Val.s "two", Val.s "one"]),
         ("z", [Val.i 0, Val.i 0, Val.i 1, Val.i 1]),
         ("x", [Val.i 4, Val.i 2, Val.i 10, Val.i 5])]) ∧
    (groupByRun exampleTafra ["y", "z"] [("x", sumVals, "x")] alloc).rows = 4 := by
  obtain ⟨a1, a2, a3, a4, hy⟩ := exists_four (h "y" "y")
  obtain ⟨b1, b2, b3, b4, hz⟩ := exists_four (h "z" "z")
  obtain ⟨c1, c2, c3, c4, hx⟩ := exists_four (h "x" "x")
  have hrf : result_factory ["y", "z"] [("x", sumVals, "x")] alloc =
      [("y", alloc "y" "y"), ("z", alloc "z" "z"), ("x", alloc "x" "x")] := rfl
  have hrun : groupByRun exampleTafra ["y", "z"] [("x", sumVals, "x")] alloc =
      Tafra.mk
        [("y", [Val.s "one", Val.s "two", Val.s "two", Val.s "one"]),
         ("z", [Val.i 0, Val.i 0, Val.i 1, Val.i 1]),
         ("x", [Val.i 4, Val.i 2, Val.i 10, Val.i 5])] := by
    unfold groupByRun
    rw [hrf, hy, hz, hx]
    rfl
  constructor
  · unfold groupByApply
    rw [if_pos (by decide), hrun]
  · rw [hrun]
    rfl

/-- Witness for C3's amended theorem at the zero-initialized allocation. -/
theorem groupBy_example_sums_witness :
    groupByApply exampleTafra ["y", "z"] [("x", sumVals, "x")] (zeroAlloc 4) =
      .ok (Tafra.mk
        [("y", [Val.s "one", Val.s "two", Val.s "two", Val.s "one"]),
         ("z", [Val.i 0, Val.i 0, Val.i 1, Val.i 1]),
         ("x", [Val.i 4, Val.i 2, Val.i 10, Val.i 5])]) ∧
    (groupByRun exampleTafra ["y", "z"] [("x", sumVals, "x")]
        (zeroAlloc 4)).rows = 4 :=
  groupBy_example_sums (zeroAlloc 4) (fun _ _ => by simp [zeroAlloc])

/-- C4 (counterexample): `iterate_by(['y','z'])` on the example table yields
4 groups, not the 3 asserted by the spec sentence. -/
theorem iterateBy_example_three_groups_false :
    (iterateByRun exampleTafra ["y", "z"]).length = 4 ∧
    (iterateByRun exampleTafra ["y", "z"]).length ≠ 3 := by
  exact ⟨rfl, by decide⟩

/-- C4 (amended): `iterate_by(['y','z'])` on the example table yields exactly
4 `(group index, sub-table)` pairs, in first-occurrence order
`(one,0), (two,0), (two,1), (one,1)`; the sub-tables carry the rows
`{0,2}, {1}, {3,5}, {4}` respectively. -/
theorem iterateBy_example_groups :
    iterateByApply exampleTafra ["y", "z"] =
      .ok
        [(0, Tafra.mk [("x", [Val.i 1, Val.i 3]),
                       ("y", [Val.s "one", Val.s "one"]),
                       ("z", [Val.i 0, Val.i 0])]),
         (1, Tafra.mk [("x", [Val.i 2]),
                       ("y", [Val.s "two"]),
                       ("z", [Val.i 0])]),
         (2, Tafra.mk [("x", [Val.i 4, Val.i 6]),
                       ("y", [Val.s "two", Val.s "two"]),
                       ("z", [Val.i 1, Val.i 1])]),
         (3, Tafra.mk [("x", [Val.i 5]),
                       ("y", [Val.s "one"]),
                       ("z", [Val.i 1])])] := rfl

/-- C10: grouping by an empty list of group-by columns yields zero groups —
`zip()` over zero columns is empty, so `unique_groups` is empty, the
`group_by([], {})` result is an empty `Tafra` with `rows = 0`, and
`iterate_by([])` yields no `(index, sub-table)` pairs — even on a table with
at least one row. -/
theorem empty_groupby_yields_no_groups (t : Tafra)
    (alloc : String → String → List Val) (_hpos : 1 ≤ t.rows) :
    uniqueGroups t [] = [] ∧
    groupByApply t [] [] alloc = .ok (Tafra.mk []) ∧
    (Tafra.mk ([] : List (String × List Val))).rows = 0 ∧
    iterateByApply t [] = .ok [] :=
  ⟨rfl, rfl, rfl, rfl⟩

/-- Witness for C10 on the example table. -/
theorem empty_groupby_yields_no_groups_witness :
    uniqueGroups exampleTafra [] = [] ∧
    groupByApply exampleTafra [] [] (zeroAlloc 0) = .ok (Tafra.mk []) ∧
    (Tafra.mk ([] : List (String × List Val))).rows = 0 ∧
    iterateByApply exampleTafra [] = .ok [] :=
  empty_groupby_yields_no_groups exampleTafra (zeroAlloc 0) (by decide)


/-! ## `update` and `update_types` (C5), dtype tags -/

/-- `needle` is a prefix of `hay` (character lists). -/
def isPrefixChars : List Char → List Char → Bool
  | [], _ => true
  | _ :: _, [] => false
  | n :: ns, h :: hs => n == h && isPrefixChars ns hs

/-- `needle` occurs inside `hay` (character lists). -/
def isInfixChars (n : List Char) : List Char → Bool
  | [] => isPrefixChars n []
  | h :: hs => isPrefixChars n (h :: hs) || isInfixChars n hs

/-- Python `sub in s` substring test, as used by `Tafra._format_type`. -/
def strContains (sub s : String) : Bool :=
  isInfixChars sub.toList s.toList

/-- `Tafra._format_type`: canonicalize a dtype's string form by substring
pattern rules. -/
def formatType (t : String) : String :=
  if strContains "int" t then "int"
  else if strContains "float" t then "float"
  else if strContains "bool" t then "bool"
  else if strContains "str" t then "str"
  else if strContains "<U" t then "str"
  else if strContains "date" t then "date"
  else if strContains "<M" t then "date"
  else if strContains "object" t then "object"
  else if strContains "O" t then "object"
  else t

/-- The keys of the `TAFRA_TYPE` coercion registry. -/
def tafraTypeKeys : List String := ["int", "float", "bool", "str", "date", "object"]

/-- `Tafra._validate_types`: format every requested tag, collect the invalid
ones into an error message, and raise once at the end if any was invalid —
so a failure happens before any mutation of `_dtypes` or `_data`. -/
def validateTypes (dtypes : List (String × String)) :
    Except Err (List (String × String)) :=
  let fm := dtypes.map (fun p => (p.1, formatType p.2))
  if fm.all (fun p => tafraTypeKeys.contains p.2) then .ok fm
  else .error .typeErr

/-- A `Tafra` together with its `_dtypes` mapping, for the operations whose
behaviour involves dtype tags. -/
structure TTafra where
  data : List (String × List Val)
  dtypes : List (String × String)
deriving DecidableEq, Repr

/-- Row count of the dtype-carrying table (same rule as `Tafra.rows`). -/
def TTafra.rowsN (t : TTafra) : Nat :=
  match t.data with
  | [] => 0
  | (_, v) :: _ => v.length

/-- `Tafra.update_types`: validate the requested tags (raising before any
mutation on an invalid tag), then merge them into `_dtypes` and re-coerce
every column whose runtime dtype disagrees with its recorded tag.  The
runtime-dtype reader and the `astype` coercion are abstract parameters
(`tag`, `cast`): values in the embedding carry no numpy dtype. -/
def updateTypes (cast : String → List Val → List Val)
    (tag : List Val → String) (t : TTafra) (ds : List (String × String)) :
    TTafra × Option Err :=
  match validateTypes ds with
  | .error e => (t, some e)
  | .ok fm =>
      let dt := fm.foldl (fun d p => dictSet d p.1 p.2) t.dtypes
      let dat := dt.foldl
        (fun da p =>
          if formatType (tag ((dictGet? da p.1).getD [])) ≠ p.2 then
            dictSet da p.1 (cast p.2 ((dictGet? da p.1).getD []))
          else da)
        t.data
      (TTafra.mk dat dt, none)

/-- The loop of `Tafra.update`: for each column of `other`, first check its
length against the row count captured before the loop, raising immediately on
a mismatch — leaving the columns already assigned in place — otherwise assign
it. -/
def updateGo (rows : Nat) :
    List (String × List Val) → List (String × List Val) →
    List (String × List Val) × Option Err
  | [], dat => (dat, none)
  | (c, v) :: rest, dat =>
      if v.length = rows then updateGo rows rest (dictSet dat c v)
      else (dat, some .rowCount)

/-- `Tafra.update(other)`: run the per-column loop, then (only when it
completed) `update_types(other._dtypes)`. -/
def updateInplace (cast : String → List Val → List Val)
    (tag : List Val → String) (t other : TTafra) : TTafra × Option Err :=
  let r := updateGo t.rowsN other.data t.data
  match r.2 with
  | some e => (TTafra.mk r.1 t.dtypes, some e)
  | none => updateTypes cast tag (TTafra.mk r.1 t.dtypes) other.dtypes

/-- The longest prefix of `other`'s columns whose lengths all equal the
target's row count — exactly the columns a failing `update` has already
assigned. -/
def validPrefix (rows : Nat) : List (String × List Val) → List (String × List Val)
  | [] => []
  | (c, v) :: rest =>
      if v.length = rows then (c, v) :: validPrefix rows rest else []

/-- Sequentially assign a list of columns into a data dict. -/
def writeAll (dat : List (String × List Val))
    (l : List (String × List Val)) : List (String × List Val) :=
  l.foldl (fun d p => dictSet d p.1 p.2) dat

theorem updateGo_fail_spec (rows : Nat) (l : List (String × List Val)) :
    ∀ dat, validPrefix rows l ≠ l →
    updateGo rows l dat = (writeAll dat (validPrefix rows l), some .rowCount) := by
  induction l with
  | nil => exact fun dat h => absurd rfl h
  | cons p rest ih =>
      intro dat h
      obtain ⟨c, v⟩ := p
      by_cases hv : v.length = rows
      · simp only [validPrefix, if_pos hv] at h ⊢
        have h' : validPrefix rows rest ≠ rest := fun he => h (by rw [he])
        simp only [updateGo, if_pos hv]
        rw [ih _ h']
        rfl
      · simp only [validPrefix, if_neg hv] at h ⊢
        simp only [updateGo, if_neg hv]
        rfl

/-- C5 (counterexample): a failed `update` leaves partial mutation behind.
With `t = {a: [1], b: [2]}` and `other = {a: [10], b: [20, 30]}`, the loop
assigns `a` before discovering `b`'s bad length, so after the row-count error
the target's `a` column reads `[10]`, not the original `[1]`. -/
theorem update_partial_mutation_observable :
    updateInplace (fun _ v => v) (fun _ => "int")
        (TTafra.mk [("a", [Val.i 1]), ("b", [Val.i 2])]
          [("a", "int"), ("b", "int")])
        (TTafra.mk [("a", [Val.i 10]), ("b", [Val.i 20, Val.i 30])]
          [("a", "int"), ("b", "int")]) =
      (TTafra.mk [("a", [Val.i 10]), ("b", [Val.i 2])]
        [("a", "int"), ("b", "int")], some .rowCount) ∧
    TTafra.mk [("a", [Val.i 10]), ("b", [Val.i 2])]
        [("a", "int"), ("b", "int")] ≠
      TTafra.mk [("a", [Val.i 1]), ("b", [Val.i 2])]
        [("a", "int"), ("b", "int")] := by
  exact ⟨rfl, by decide⟩

/-- C5 (amended): `update_types` does complete all validation before any
mutation — an invalid dtype tag leaves the table untouched — but `update`
validates each column's length immediately before assigning it, so when a
later column fails, exactly the columns of `other` before the first invalid
one have already been overwritten (and the dtypes are untouched). -/
theorem update_types_atomic_update_not :
    (∀ (cast : String → List Val → List Val) (tag : List Val → String)
        (t : TTafra) (ds : List (String × String)) (e : Err),
        validateTypes ds = .error e →
        updateTypes cast tag t ds = (t, some e)) ∧
    (∀ (cast : String → List Val → List Val) (tag : List Val → String)
        (t other : TTafra),
        validPrefix t.rowsN other.data ≠ other.data →
        updateInplace cast tag t other =
          (TTafra.mk (writeAll t.data (validPrefix t.rowsN other.data))
              t.dtypes,
            some .rowCount)) := by
  constructor
  · intro cast tag t ds e hv
    unfold updateTypes
    rw [hv]
  · intro cast tag t other h
    unfold updateInplace
    rw [updateGo_fail_spec t.rowsN other.data t.data h]

/-- Witness for C5's amended theorem at concrete inputs. -/
theorem update_types_atomic_update_not_witness :
    updateTypes (fun _ v => v) (fun _ => "int")
        (TTafra.mk [("a", [Val.i 1])] [("a", "int")]) [("a", "flot")] =
      (TTafra.mk [("a", [Val.i 1])] [("a", "int")], some .typeErr) ∧
    updateInplace (fun _ v => v) (fun _ => "int")
        (TTafra.mk [("a", [Val.i 1]), ("b", [Val.i 2])]
          [("a", "int"), ("b", "int")])
        (TTafra.mk [("a", [Val.i 10]), ("b", [Val.i 20, Val.i 30])] []) =
      (TTafra.mk
          (writeAll [("a", [Val.i 1]), ("b", [Val.i 2])]
            (validPrefix 1 [("a", [Val.i 10]), ("b", [Val.i 20, Val.i 30])]))
          [("a", "int"), ("b", "int")],
        some .rowCount) := by
  constructor
  · exact update_types_atomic_update_not.1 _ _ _ _ .typeErr rfl
  · exact update_types_atomic_update_not.2 _ _
      (TTafra.mk [("a", [Val.i 1]), ("b", [Val.i 2])]
        [("a", "int"), ("b", "int")])
      (TTafra.mk [("a", [Val.i 10]), ("b", [Val.i 20, Val.i 30])] [])
      (by decide)


/-! ## Copy independence vs string-index aliasing (C7)

To speak about storage sharing we refine the embedding with an explicit
store: each numpy array lives in a cell, a `Tafra` maps column names to
cell references, `value.copy()` allocates fresh cells, and `tafra[name]`
returns the column's own cell (the array object itself). -/

abbrev Ref := Nat

abbrev Store := List (List Val)

/-- Read an array cell. -/
def readRef (s : Store) (r : Ref) : List Val := s.getD r []

/-- Mutate an array cell in place (e.g. writing through a returned array). -/
def writeRef (s : Store) (r : Ref) (v : List Val) : Store := s.set r v

/-- A `Tafra` viewed with explicit array storage: `_data` maps each column
name to the reference of its array cell. -/
structure HTafra where
  cols : List (String × Ref)

/-- `tafra[name]` for a string index: `self._data[item]` — the column's own
array object, i.e. its cell reference (no copy). -/
def getItemRef (t : HTafra) (c : String) : Option Ref := dictGet? t.cols c

/-- The values of column `c` as seen in store `s`. -/
def hcol (s : Store) (t : HTafra) (c : String) : List Val :=
  Option.elim (dictGet? t.cols c) [] (fun r => readRef s r)

/-- `Tafra.copy`: `value.copy(order=order)` for every column — each column
gets a freshly allocated cell holding the same values. -/
def copyAlloc (s : Store) : List (String × Ref) → Store × List (String × Ref)
  | [] => (s, [])
  | (c, r) :: rest =>
      let s' := s ++ [readRef s r]
      let p := copyAlloc s' rest
      (p.1, (c, s.length) :: p.2)

/-- `Tafra.copy` on the store model. -/
def copyH (s : Store) (t : HTafra) : Store × HTafra :=
  ((copyAlloc s t.cols).1, ⟨(copyAlloc s t.cols).2⟩)

/-- All of a table's column references point inside the store. -/
def HWf (s : Store) (t : HTafra) : Prop := ∀ p ∈ t.cols, p.2 < s.length

theorem dictGet?_mem {α : Type} {l : List (String × α)} {c : String} {v : α}
    (h : dictGet? l c = some v) : (c, v) ∈ l := by
  induction l with
  | nil => cases h
  | cons p rest ih =>
      obtain ⟨k, w⟩ := p
      by_cases hk : k = c
      · simp only [dictGet?, if_pos hk] at h
        cases h
        subst hk
        exact List.mem_cons_self _ _
      · simp only [dictGet?, if_neg hk] at h
        exact List.mem_cons_of_mem _ (ih h)

theorem copyAlloc_extends (l : List (String × Ref)) :
    ∀ s : Store, ∃ ext : Store, (copyAlloc s l).1 = s ++ ext := by
  induction l with
  | nil => exact fun s => ⟨[], by simp [copyAlloc]⟩
  | cons p rest ih =>
      intro s
      obtain ⟨c, r⟩ := p
      obtain ⟨ext, hext⟩ := ih (s ++ [readRef s r])
      exact ⟨[readRef s r] ++ ext, by simp [copyAlloc, hext]⟩

theorem copyAlloc_fresh (l : List (String × Ref)) :
    ∀ s : Store, ∀ p ∈ (copyAlloc s l).2, s.length ≤ p.2 := by
  induction l with
  | nil => intro s p hp; simp [copyAlloc] at hp
  | cons q rest ih =>
      intro s p hp
      obtain ⟨c, r⟩ := q
      simp only [copyAlloc, List.mem_cons] at hp
      rcases hp with hp | hp
      · subst hp; exact Nat.le_refl _
      · have := ih (s ++ [readRef s r]) p hp
        simp only [List.length_append, List.length_cons] at this
        omega

theorem readRef_append {s ext : Store} {r : Ref} (h : r < s.length) :
    readRef (s ++ ext) r = readRef s r := by
  unfold readRef
  rw [List.getD_eq_getElem?_getD, List.getD_eq_getElem?_getD,
    List.getElem?_append, if_pos h]

theorem readRef_write_ne {s : Store} {r r' : Ref} {v : List Val}
    (h : r ≠ r') : readRef (writeRef s r' v) r = readRef s r := by
  unfold readRef writeRef
  rw [List.getD_eq_getElem?_getD, List.getD_eq_getElem?_getD,
    List.getElem?_set_ne (fun he => h he.symm)]

/-- C7: `copy()` is deeply independent — writing any array of the copy
leaves every column of the original reading unchanged — while `tafra[name]`
returns the column's own storage, so writing through it changes the
original's column values to the written array. -/
theorem copy_independent_getitem_aliases (s : Store) (t : HTafra)
    (hwf : HWf s t) :
    (∀ c' r', getItemRef (copyH s t).2 c' = some r' →
        ∀ xs c, hcol (writeRef (copyH s t).1 r' xs) t c = hcol s t c) ∧
    (∀ c r, getItemRef t c = some r →
        ∀ xs, hcol (writeRef s r xs) t c = xs) := by
  constructor
  · intro c' r' hr' xs c
    have hfresh : s.length ≤ r' :=
      copyAlloc_fresh t.cols s (c', r') (dictGet?_mem hr')
    obtain ⟨ext, hext⟩ := copyAlloc_extends t.cols s
    unfold hcol
    cases hc : dictGet? t.cols c with
    | none => rfl
    | some r =>
        have hr : r < s.length := hwf (c, r) (dictGet?_mem hc)
        have hne : r ≠ r' := fun he =>
          Nat.lt_irrefl r' (Nat.lt_of_lt_of_le (he ▸ hr) hfresh)
        show readRef (writeRef (copyH s t).1 r' xs) r = readRef s r
        rw [readRef_write_ne hne]
        show readRef (copyAlloc s t.cols).1 r = readRef s r
        rw [hext]
        exact readRef_append hr
  · intro c r hr xs
    have hlt : r < s.length := hwf (c, r) (dictGet?_mem hr)
    unfold hcol
    rw [show dictGet? t.cols c = some r from hr]
    show readRef (writeRef s r xs) r = xs
    unfold readRef writeRef
    rw [List.getD_eq_getElem?_getD, List.getElem?_set_self hlt]
    rfl

/-- Witness for C7 at a concrete store and table. -/
theorem copy_independent_getitem_aliases_witness :
    (∀ c' r',
        getItemRef (copyH [[Val.i 1], [Val.i 2]]
            (HTafra.mk [("x", 0), ("y", 1)])).2 c' = some r' →
        ∀ xs c,
          hcol (writeRef (copyH [[Val.i 1], [Val.i 2]]
              (HTafra.mk [("x", 0), ("y", 1)])).1 r' xs)
            (HTafra.mk [("x", 0), ("y", 1)]) c =
          hcol [[Val.i 1], [Val.i 2]] (HTafra.mk [("x", 0), ("y", 1)]) c) ∧
    (∀ c r, getItemRef (HTafra.mk [("x", 0), ("y", 1)]) c = some r →
        ∀ xs, hcol (writeRef [[Val.i 1], [Val.i 2]] r xs)
            (HTafra.mk [("x", 0), ("y", 1)]) c = xs) := by
  refine copy_independent_getitem_aliases [[Val.i 1], [Val.i 2]]
    (HTafra.mk [("x", 0), ("y", 1)]) ?_
  intro p hp
  fin_cases hp <;> decide


/-! ## Union (C2) -/

/-- Two name lists describe the same set of column names. -/
def sameNameSet (a b : List String) : Bool :=
  a.all (fun c => b.elem c) && b.all (fun c => a.elem c)

/-- Modelled from the spec: `Tafra.union` is not present in `src/tafra.py`
(only the test suite exercises `union`/`union_inplace`); §4.1 Union requires
identical column-name sets and identical per-column type tags — mismatches
fail with the type error — and appends: each result column is self's array
followed by other's array, with no row-count compatibility requirement. -/
def unionTafra (s o : TTafra) : Except Err TTafra :=
  if sameNameSet (s.data.map (fun p => p.1)) (o.data.map (fun p => p.1)) then
    if s.data.all (fun p => dictGet? s.dtypes p.1 == dictGet? o.dtypes p.1) then
      .ok (TTafra.mk
        (s.data.map (fun p => (p.1, p.2 ++ (dictGet? o.data p.1).getD [])))
        s.dtypes)
    else .error .typeErr
  else .error .typeErr

theorem mem_names_of_dictGet? {α : Type} {l : List (String × α)} {c : String}
    {v : α} (h : dictGet? l c = some v) : c ∈ l.map (fun p => p.1) :=
  List.mem_map.mpr ⟨(c, v), dictGet?_mem h, rfl⟩

theorem dictGet?_isSome_of_mem_names {α : Type} {l : List (String × α)}
    {c : String} (h : c ∈ l.map (fun p => p.1)) :
    ∃ v, dictGet? l c = some v := by
  induction l with
  | nil => cases h
  | cons p rest ih =>
      obtain ⟨k, v⟩ := p
      by_cases hk : k = c
      · exact ⟨v, by simp [dictGet?, hk]⟩
      · simp only [List.map_cons, List.mem_cons] at h
        rcases h with h | h
        · exact absurd h.symm hk
        · obtain ⟨w, hw⟩ := ih h
          exact ⟨w, by simp [dictGet?, hk, hw]⟩

theorem dictGet?_map_append {l : List (String × List Val)}
    (g : String → List Val) (c : String) :
    dictGet? (l.map (fun p => (p.1, p.2 ++ g p.1))) c =
      (dictGet? l c).map (fun v => v ++ g c) := by
  induction l with
  | nil => rfl
  | cons p rest ih =>
      obtain ⟨k, v⟩ := p
      by_cases hk : k = c
      · subst hk
        simp [dictGet?]
      · simp [dictGet?, hk, ih]

theorem sameNameSet_mem {a b : List String} (h : sameNameSet a b = true) :
    (∀ c ∈ a, c ∈ b) ∧ (∀ c ∈ b, c ∈ a) := by
  unfold sameNameSet at h
  rw [Bool.and_eq_true] at h
  obtain ⟨h1, h2⟩ := h
  rw [List.all_eq_true] at h1 h2
  exact ⟨fun c hc => List.elem_iff.mp (h1 c hc),
    fun c hc => List.elem_iff.mp (h2 c hc)⟩

/-- C2: `union` with identical column-name sets and identical per-column
type tags appends — the result has `rows = self.rows + other.rows` and each
result column is self's array followed by other's array — with no
requirement that self and other have equal row counts; a mismatched name set
or a mismatched tag fails with the type error. -/
theorem union_appends (s o : TTafra)
    (hs : ∀ p ∈ s.data, (p.2 : List Val).length = s.rowsN)
    (ho : ∀ p ∈ o.data, (p.2 : List Val).length = o.rowsN) :
    (sameNameSet (s.data.map (fun p => p.1)) (o.data.map (fun p => p.1)) = true →
      s.data.all (fun p => dictGet? s.dtypes p.1 == dictGet? o.dtypes p.1) = true →
      ∃ u, unionTafra s o = .ok u ∧ u.rowsN = s.rowsN + o.rowsN ∧
        ∀ c vs vo, dictGet? s.data c = some vs → dictGet? o.data c = some vo →
          dictGet? u.data c = some (vs ++ vo)) ∧
    (sameNameSet (s.data.map (fun p => p.1)) (o.data.map (fun p => p.1)) = false →
      unionTafra s o = .error .typeErr) ∧
    (sameNameSet (s.data.map (fun p => p.1)) (o.data.map (fun p => p.1)) = true →
      s.data.all (fun p => dictGet? s.dtypes p.1 == dictGet? o.dtypes p.1) = false →
      unionTafra s o = .error .typeErr) := by
  refine ⟨?_, ?_, ?_⟩
  · intro hnames htags
    refine ⟨_, by rw [unionTafra, if_pos hnames, if_pos htags], ?_, ?_⟩
    · show TTafra.rowsN (TTafra.mk
        (s.data.map (fun p => (p.1, p.2 ++ (dictGet? o.data p.1).getD [])))
        s.dtypes) = s.rowsN + o.rowsN
      cases hsd : s.data with
      | nil =>
          have hod : o.data = [] := by
            cases hodd : o.data with
            | nil => rfl
            | cons q qs =>
                have := (sameNameSet_mem hnames).2 q.1
                  (by rw [hodd]; exact List.mem_map.mpr ⟨q, List.mem_cons_self _ _, rfl⟩)
                rw [hsd] at this
                cases this
          have h1 : s.rowsN = 0 := by unfold TTafra.rowsN; rw [hsd]
          have h2 : o.rowsN = 0 := by unfold TTafra.rowsN; rw [hod]
          rw [h1, h2]
          rfl
      | cons p rest =>
          obtain ⟨c₁, v₁⟩ := p
          have hc₁ : c₁ ∈ o.data.map (fun p => p.1) :=
            (sameNameSet_mem hnames).1 c₁
              (by rw [hsd]; exact List.mem_map.mpr ⟨(c₁, v₁), List.mem_cons_self _ _, rfl⟩)
          obtain ⟨vo, hvo⟩ := dictGet?_isSome_of_mem_names hc₁
          have hvol : vo.length = o.rowsN := ho (c₁, vo) (dictGet?_mem hvo)
          have hv₁ : v₁.length = s.rowsN :=
            hs (c₁, v₁) (by rw [hsd]; exact List.mem_cons_self _ _)
          show ((v₁ ++ (dictGet? o.data c₁).getD []).length) = s.rowsN + o.rowsN
          rw [hvo]
          show (v₁ ++ vo).length = s.rowsN + o.rowsN
          rw [List.length_append, hv₁, hvol]
    · intro c vs vo hvs hvo
      show dictGet? (s.data.map (fun p => (p.1, p.2 ++ (dictGet? o.data p.1).getD []))) c
        = some (vs ++ vo)
      rw [dictGet?_map_append (fun c => (dictGet? o.data c).getD []), hvs]
      simp [hvo]
  · intro hnames
    rw [unionTafra, if_neg (by rw [hnames]; exact Bool.false_ne_true)]
  · intro hnames htags
    rw [unionTafra, if_pos hnames,
      if_neg (by rw [htags]; exact Bool.false_ne_true)]

/-- Witness for C2: two one-column tables with different row counts union
into their concatenation. -/
theorem union_appends_witness :
    ∃ u, unionTafra (TTafra.mk [("x", [Val.i 1])] [("x", "int")])
        (TTafra.mk [("x", [Val.i 2, Val.i 3])] [("x", "int")]) = .ok u ∧
      u.rowsN = (TTafra.mk [("x", [Val.i 1])] [("x", "int")]).rowsN +
        (TTafra.mk [("x", [Val.i 2, Val.i 3])] [("x", "int")]).rowsN ∧
      ∀ c vs vo,
        dictGet? [("x", [Val.i 1])] c = some vs →
        dictGet? [("x", [Val.i 2, Val.i 3])] c = some vo →
        dictGet? u.data c = some (vs ++ vo) := by
  refine (union_appends (TTafra.mk [("x", [Val.i 1])] [("x", "int")])
      (TTafra.mk [("x", [Val.i 2, Val.i 3])] [("x", "int")]) ?_ ?_).1 rfl rfl
  · intro p hp
    fin_cases hp
    decide
  · intro p hp
    fin_cases hp
    decide

/-! ## CrossJoin (C9) -/

/-- Modelled from the spec: no join engine exists in `src/tafra.py` (only the
test suite exercises `cross_join`); §4.4 CrossJoin produces a table of
`left.rows * right.rows` rows in which output row `i*right.rows + j` pairs
left-row `i` with right-row `j`.  Columns found on the left are repeated per
left row; the remaining requested columns are tiled from the right. -/
def crossJoinRun (l r : Tafra) (cols : List String) : Tafra :=
  ⟨cols.map (fun c =>
    (c, if (dictGet? l.data c).isSome then
          (List.range (l.rows * r.rows)).map
            (fun k => (l.col c).getD (k / r.rows) (Val.i 0))
        else
          (List.range (l.rows * r.rows)).map
            (fun k => (r.col c).getD (k % r.rows) (Val.i 0))))⟩

/-- Modelled from the spec: `cross_join(left, right, select?)` — all columns
of both sides when `select` is absent, otherwise the requested columns,
failing with the index error if a requested column exists on neither side. -/
def crossJoin (l r : Tafra) (select : Option (List String)) :
    Except Err Tafra :=
  match select with
  | some sel =>
      if sel.all (fun c => (dictGet? l.data c).isSome || (dictGet? r.data c).isSome)
      then .ok (crossJoinRun l r sel)
      else .error .indexErr
  | none =>
      .ok (crossJoinRun l r (l.data.map (fun p => p.1) ++ r.data.map (fun p => p.1)))

theorem dictGet?_map_key (f : String → List Val) (cols : List String)
    (c : String) (h : c ∈ cols) :
    dictGet? (cols.map (fun c' => (c', f c'))) c = some (f c) := by
  induction cols with
  | nil => cases h
  | cons c' rest ih =>
      cases h with
      | head => simp [dictGet?]
      | tail _ h =>
          by_cases hk : c' = c
          · subst hk
            simp [dictGet?]
          · simp [dictGet?, hk, ih h]

theorem getD_range_map (f : Nat → Val) {n k : Nat} (hk : k < n) :
    ((List.range n).map f).getD k (Val.i 0) = f k := by
  rw [List.getD_eq_getElem?_getD, List.getElem?_map, List.getElem?_range hk]
  rfl

theorem pair_index_lt {i j li rj : Nat} (hi : i < li) (hj : j < rj) :
    i * rj + j < li * rj :=
  Nat.lt_of_lt_of_le
    (by calc i * rj + j < i * rj + rj := Nat.add_lt_add_left hj _
          _ = (i + 1) * rj := (Nat.succ_mul i rj).symm)
    (Nat.mul_le_mul_right rj hi)

theorem pair_index_div {i j rj : Nat} (hj : j < rj) :
    (i * rj + j) / rj = i := by
  rw [Nat.add_comm, Nat.add_mul_div_right j i (Nat.lt_of_le_of_lt (Nat.zero_le j) hj),
    Nat.div_eq_of_lt hj]
  exact Nat.zero_add i

theorem pair_index_mod {i j rj : Nat} (hj : j < rj) :
    (i * rj + j) % rj = j := by
  rw [Nat.add_comm, Nat.add_mul_mod_self_right, Nat.mod_eq_of_lt hj]

theorem crossJoinRun_rows (l r : Tafra) (cols : List String)
    (h : cols ≠ [] ∨ l.data = []) :
    (crossJoinRun l r cols).rows = l.rows * r.rows := by
  cases cols with
  | nil =>
      rcases h with h | h
      · exact absurd rfl h
      · show (0 : Nat) = l.rows * r.rows
        have : l.rows = 0 := by unfold Tafra.rows; rw [h]
        rw [this, Nat.zero_mul]
  | cons c rest =>
      show (if (dictGet? l.data c).isSome then
          (List.range (l.rows * r.rows)).map
            (fun k => (l.col c).getD (k / r.rows) (Val.i 0))
        else
          (List.range (l.rows * r.rows)).map
            (fun k => (r.col c).getD (k % r.rows) (Val.i 0))).length
        = l.rows * r.rows
      by_cases hc : (dictGet? l.data c).isSome
      · rw [if_pos hc, List.length_map, List.length_range]
      · rw [if_neg hc, List.length_map, List.length_range]

theorem crossJoinRun_pair_left (l r : Tafra) (cols : List String)
    {c : String} (hmem : c ∈ cols) (hc : (dictGet? l.data c).isSome = true)
    {i j : Nat} (hi : i < l.rows) (hj : j < r.rows) :
    ((crossJoinRun l r cols).col c).getD (i * r.rows + j) (Val.i 0) =
      (l.col c).getD i (Val.i 0) := by
  unfold crossJoinRun Tafra.col
  rw [dictGet?_map_key _ cols c hmem]
  show ((if (dictGet? l.data c).isSome then _ else _) : List Val).getD _ _ = _
  rw [if_pos hc, getD_range_map _ (pair_index_lt hi hj), pair_index_div hj]

theorem crossJoinRun_pair_right (l r : Tafra) (cols : List String)
    {c : String} (hmem : c ∈ cols) (hc : (dictGet? l.data c).isSome = false)
    {i j : Nat} (hi : i < l.rows) (hj : j < r.rows) :
    ((crossJoinRun l r cols).col c).getD (i * r.rows + j) (Val.i 0) =
      (r.col c).getD j (Val.i 0) := by
  unfold crossJoinRun Tafra.col
  rw [dictGet?_map_key _ cols c hmem]
  show ((if (dictGet? l.data c).isSome then _ else _) : List Val).getD _ _ = _
  rw [hc]
  show (((List.range (l.rows * r.rows)).map
      (fun k => ((dictGet? r.data c).getD []).getD (k % r.rows) (Val.i 0))) :
      List Val).getD _ _ = _
  rw [getD_range_map _ (pair_index_lt hi hj), pair_index_mod hj]

/-- The column list a `cross_join` call works over: all columns of both
sides when `select` is absent, otherwise the requested ones. -/
def selCols (l r : Tafra) : Option (List String) → List String
  | none => l.data.map (fun p => p.1) ++ r.data.map (fun p => p.1)
  | some sel => sel

theorem crossJoin_ok_eq {l r : Tafra} {select : Option (List String)}
    {u : Tafra} (hok : crossJoin l r select = .ok u) :
    u = crossJoinRun l r (selCols l r select) := by
  cases select with
  | none =>
      cases hok
      rfl
  | some sel =>
      simp only [crossJoin] at hok
      by_cases hc : sel.all (fun c => (dictGet? l.data c).isSome ||
          (dictGet? r.data c).isSome) = true
      · rw [if_pos hc] at hok
        cases hok
        rfl
      · rw [if_neg hc] at hok
        cases hok

theorem crossJoinRun_names (l r : Tafra) (cols : List String) :
    (crossJoinRun l r cols).data.map (fun p => p.1) = cols := by
  induction cols with
  | nil => rfl
  | cons c rest ih =>
      simp only [crossJoinRun, List.map_cons] at ih ⊢
      rw [ih]

/-- C9: a successful `cross_join` produces a table containing exactly the
requested (or all) columns, with exactly `left.rows * right.rows` rows, in
which output row `i*right.rows + j` pairs left row `i` (for columns found on
the left) with right row `j` (for the remaining columns). -/
theorem crossJoin_rows_and_pairing (l r : Tafra)
    (select : Option (List String)) (u : Tafra)
    (hok : crossJoin l r select = .ok u)
    (hne : selCols l r select ≠ [] ∨ l.data = []) :
    u.data.map (fun p => p.1) = selCols l r select ∧
    u.rows = l.rows * r.rows ∧
    (∀ c ∈ selCols l r select, ∀ i j, i < l.rows → j < r.rows →
      ((dictGet? l.data c).isSome = true →
        (u.col c).getD (i * r.rows + j) (Val.i 0) = (l.col c).getD i (Val.i 0)) ∧
      ((dictGet? l.data c).isSome = false →
        (u.col c).getD (i * r.rows + j) (Val.i 0) = (r.col c).getD j (Val.i 0))) := by
  have hu := crossJoin_ok_eq hok
  subst hu
  refine ⟨crossJoinRun_names l r _, crossJoinRun_rows l r _ hne, ?_⟩
  intro c hmem i j hi hj
  exact ⟨fun hc => crossJoinRun_pair_left l r _ hmem hc hi hj,
    fun hc => crossJoinRun_pair_right l r _ hmem hc hi hj⟩

/-- Witness for C9: a 2-row left joined with a 3-row right gives 6 rows with
the block pairing layout. -/
theorem crossJoin_rows_and_pairing_witness :
    (crossJoinRun (Tafra.mk [("x", [Val.i 1, Val.i 2])])
        (Tafra.mk [("a", [Val.i 7, Val.i 8, Val.i 9])]) ["x", "a"]).data.map
        (fun p => p.1) = ["x", "a"] ∧
    (crossJoinRun (Tafra.mk [("x", [Val.i 1, Val.i 2])])
        (Tafra.mk [("a", [Val.i 7, Val.i 8, Val.i 9])]) ["x", "a"]).rows =
      (Tafra.mk [("x", [Val.i 1, Val.i 2])]).rows *
        (Tafra.mk [("a", [Val.i 7, Val.i 8, Val.i 9])]).rows ∧
    (∀ c ∈ ["x", "a"], ∀ i j,
      i < (Tafra.mk [("x", [Val.i 1, Val.i 2])]).rows →
      j < (Tafra.mk [("a", [Val.i 7, Val.i 8, Val.i 9])]).rows →
      ((dictGet? [("x", [Val.i 1, Val.i 2])] c).isSome = true →
        ((crossJoinRun (Tafra.mk [("x", [Val.i 1, Val.i 2])])
            (Tafra.mk [("a", [Val.i 7, Val.i 8, Val.i 9])]) ["x", "a"]).col c).getD
          (i * (Tafra.mk [("a", [Val.i 7, Val.i 8, Val.i 9])]).rows + j) (Val.i 0) =
        ((Tafra.mk [("x", [Val.i 1, Val.i 2])]).col c).getD i (Val.i 0)) ∧
      ((dictGet? [("x", [Val.i 1, Val.i 2])] c).isSome = false →
        ((crossJoinRun (Tafra.mk [("x", [Val.i 1, Val.i 2])])
            (Tafra.mk [("a", [Val.i 7, Val.i 8, Val.i 9])]) ["x", "a"]).col c).getD
          (i * (Tafra.mk [("a", [Val.i 7, Val.i 8, Val.i 9])]).rows + j) (Val.i 0) =
        ((Tafra.mk [("a", [Val.i 7, Val.i 8, Val.i 9])]).col c).getD j (Val.i 0))) :=
  crossJoin_rows_and_pairing (Tafra.mk [("x", [Val.i 1, Val.i 2])])
    (Tafra.mk [("a", [Val.i 7, Val.i 8, Val.i 9])]) none _ rfl
    (Or.inl (by decide))

/-! ## GroupBy masks partition the row set (C8) -/

theorem col_length_of_hasCol {t : Tafra} {c : String} (hwf : Wf t)
    (hc : t.hasCol c = true) : (t.col c).length = t.rows := by
  unfold Tafra.hasCol at hc
  cases hv : dictGet? t.data c with
  | none => rw [hv] at hc; cases hc
  | some v =>
      have := hwf (c, v) (dictGet?_mem hv)
      unfold Tafra.col
      rw [hv]
      exact this

theorem mem_dedupFirstAux {x : List Val} :
    ∀ (l seen : List (List Val)),
    x ∈ dedupFirstAux seen l ↔ (x ∈ l ∧ x ∉ seen) := by
  intro l
  induction l with
  | nil => intro seen; simp [dedupFirstAux]
  | cons k rest ih =>
      intro seen
      by_cases hk : k ∈ seen
      · rw [dedupFirstAux, if_pos hk, ih seen]
        constructor
        · exact fun ⟨hr, hs⟩ => ⟨List.mem_cons_of_mem _ hr, hs⟩
        · rintro ⟨hm, hs⟩
          cases hm with
          | head => exact absurd hk hs
          | tail _ hr => exact ⟨hr, hs⟩
      · rw [dedupFirstAux, if_neg hk]
        constructor
        · intro hm
          cases hm with
          | head => exact ⟨List.mem_cons_self _ _, hk⟩
          | tail _ hr =>
              obtain ⟨h1, h2⟩ := (ih (k :: seen)).mp hr
              exact ⟨List.mem_cons_of_mem _ h1,
                fun hx => h2 (List.mem_cons_of_mem _ hx)⟩
        · rintro ⟨hm, hs⟩
          cases hm with
          | head => exact List.mem_cons_self _ _
          | tail _ hr =>
              by_cases hxk : x = k
              · rw [hxk]; exact List.mem_cons_self _ _
              · refine List.mem_cons_of_mem _ ((ih (k :: seen)).mpr ⟨hr, ?_⟩)
                intro hx
                cases hx with
                | head => exact hxk rfl
                | tail _ hx' => exact hs hx'

theorem mem_dedupFirst {x : List Val} {l : List (List Val)} :
    x ∈ dedupFirst l ↔ x ∈ l := by
  unfold dedupFirst
  rw [mem_dedupFirstAux]
  simp

theorem nodup_dedupFirstAux :
    ∀ (l seen : List (List Val)), (dedupFirstAux seen l).Nodup := by
  intro l
  induction l with
  | nil => intro seen; exact List.nodup_nil
  | cons k rest ih =>
      intro seen
      by_cases hk : k ∈ seen
      · rw [dedupFirstAux, if_pos hk]; exact ih seen
      · rw [dedupFirstAux, if_neg hk]
        rw [List.nodup_cons]
        refine ⟨?_, ih (k :: seen)⟩
        intro hm
        exact ((mem_dedupFirstAux rest (k :: seen)).mp hm).2
          (List.mem_cons_self _ _)

theorem nodup_dedupFirst (l : List (List Val)) : (dedupFirst l).Nodup :=
  nodup_dedupFirstAux l []

theorem zipWith_and_getD {a b : List Bool} {i : Nat} (ha : i < a.length)
    (hb : i < b.length) :
    (a.zipWith and b).getD i false = (a.getD i false && b.getD i false) := by
  have hz : i < (a.zipWith and b).length := by
    rw [List.length_zipWith]; exact Nat.lt_min.mpr ⟨ha, hb⟩
  rw [List.getD_eq_getElem _ _ hz, List.getD_eq_getElem _ _ ha,
    List.getD_eq_getElem _ _ hb, List.getElem_zipWith]

theorem map_beq_getD {l : List Val} {v : Val} {i : Nat} (h : i < l.length) :
    (l.map (fun x => x == v)).getD i false = ((l.getD i (Val.i 0)) == v) := by
  rw [List.getD_eq_getElem _ _ (by rw [List.length_map]; exact h),
    List.getD_eq_getElem _ _ h, List.getElem_map]

theorem foldAnd_char (t : Tafra) :
    ∀ (pairs : List (Val × String)) (m : List Bool),
    m.length = t.rows →
    (∀ vc ∈ pairs, (t.col vc.2).length = t.rows) →
    (pairs.foldl (fun m' vc => andMask m' (colEqMask t vc.2 vc.1)) m).length
        = t.rows ∧
    ∀ i, i < t.rows →
      (pairs.foldl (fun m' vc => andMask m' (colEqMask t vc.2 vc.1)) m).getD i false
        = (m.getD i false &&
            pairs.all (fun vc => (t.col vc.2).getD i (Val.i 0) == vc.1)) := by
  intro pairs
  induction pairs with
  | nil =>
      intro m hm _
      refine ⟨hm, ?_⟩
      intro i _
      rw [List.foldl_nil, List.all_nil, Bool.and_true]
  | cons vc rest ih =>
      intro m hm hp
      have hcol : (t.col vc.2).length = t.rows := hp vc (List.mem_cons_self _ _)
      have hm' : (andMask m (colEqMask t vc.2 vc.1)).length = t.rows := by
        unfold andMask colEqMask
        rw [List.length_zipWith, List.length_map, hm, hcol, Nat.min_self]
      obtain ⟨hl, hpt⟩ := ih (andMask m (colEqMask t vc.2 vc.1)) hm'
        (fun w hw => hp w (List.mem_cons_of_mem _ hw))
      refine ⟨hl, ?_⟩
      intro i hi
      rw [List.foldl_cons, hpt i hi]
      have hmi : i < m.length := hm ▸ hi
      have hci : i < (t.col vc.2).length := hcol ▸ hi
      have h1 : (andMask m (colEqMask t vc.2 vc.1)).getD i false
          = (m.getD i false && ((t.col vc.2).getD i (Val.i 0) == vc.1)) := by
        unfold andMask colEqMask
        rw [zipWith_and_getD hmi (by rw [List.length_map]; exact hci),
          map_beq_getD hci]
      rw [h1, List.all_cons, Bool.and_assoc]

theorem keyAt_length (t : Tafra) (gb : List String) (i : Nat) :
    (keyAt t gb i).length = gb.length := by
  unfold keyAt
  rw [List.length_map]

theorem zipAll_eq_key (t : Tafra) (i : Nat) :
    ∀ (gb : List String) (u : List Val), u.length = gb.length →
    ((u.zip gb).all (fun vc => (t.col vc.2).getD i (Val.i 0) == vc.1))
      = decide (keyAt t gb i = u) := by
  intro gb
  induction gb with
  | nil =>
      intro u hu
      rw [List.length_nil, List.length_eq_zero] at hu
      subst hu
      rfl
  | cons c gb' ih =>
      intro u hu
      cases u with
      | nil => cases hu
      | cons v u' =>
          have hu' : u'.length = gb'.length := by
            simpa using hu
          show ((v, c) :: u'.zip gb').all
              (fun vc => (t.col vc.2).getD i (Val.i 0) == vc.1)
            = decide (keyAt t (c :: gb') i = v :: u')
          rw [List.all_cons, ih u' hu']
          have hkey : keyAt t (c :: gb') i
              = (t.col c).getD i (Val.i 0) :: keyAt t gb' i := rfl
          rw [hkey]
          have hbd : ∀ x y : Val, (x == y) = decide (x = y) := fun x y => rfl
          by_cases h1 : (t.col c).getD i (Val.i 0) = v
          · by_cases h2 : keyAt t gb' i = u' <;> simp [h1, h2, hbd]
          · simp [h1, hbd]

theorem groupMask_length (t : Tafra) (gb : List String) (u : List Val)
    (hcols : ∀ c ∈ gb, (t.col c).length = t.rows) :
    (groupMask t gb u).length = t.rows := by
  unfold groupMask fullMask
  exact (foldAnd_char t (u.zip gb) (List.replicate t.rows true)
    (List.length_replicate _ _)
    (fun vc hvc => hcols vc.2 (List.of_mem_zip hvc).2)).1

theorem groupMask_getD (t : Tafra) (gb : List String) (u : List Val)
    (hcols : ∀ c ∈ gb, (t.col c).length = t.rows)
    (hu : u.length = gb.length) {i : Nat} (hi : i < t.rows) :
    (groupMask t gb u).getD i false = decide (keyAt t gb i = u) := by
  unfold groupMask fullMask
  rw [(foldAnd_char t (u.zip gb) (List.replicate t.rows true)
    (List.length_replicate _ _)
    (fun vc hvc => hcols vc.2 (List.of_mem_zip hvc).2)).2 i hi]
  rw [List.getD_eq_getElem _ _ (by rw [List.length_replicate]; exact hi),
    List.getElem_replicate, Bool.true_and]
  exact zipAll_eq_key t i gb u hu

theorem groupKeys_eq (t : Tafra) (gb : List String) (hne : gb ≠ []) :
    groupKeys t gb = (List.range t.rows).map (keyAt t gb) := by
  unfold groupKeys
  rw [if_neg]
  intro h
  exact hne (List.isEmpty_iff.mp h)

theorem mem_uniqueGroups_len {t : Tafra} {gb : List String} {u : List Val}
    (hu : u ∈ uniqueGroups t gb) (hne : gb ≠ []) : u.length = gb.length := by
  have := mem_dedupFirst.mp hu
  rw [groupKeys_eq t gb hne] at this
  obtain ⟨j, _, rfl⟩ := List.mem_map.mp this
  exact keyAt_length t gb j

theorem groupMask_eq_range_map (t : Tafra) (gb : List String) (u : List Val)
    (hcols : ∀ c ∈ gb, (t.col c).length = t.rows)
    (hu : u.length = gb.length) :
    groupMask t gb u =
      (List.range t.rows).map (fun i => decide (keyAt t gb i = u)) := by
  apply List.ext_getElem
  · rw [groupMask_length t gb u hcols, List.length_map, List.length_range]
  · intro n h1 h2
    have hn : n < t.rows := by
      rw [groupMask_length t gb u hcols] at h1
      exact h1
    rw [List.getElem_map, List.getElem_range,
      ← List.getD_eq_getElem _ false h1, groupMask_getD t gb u hcols hu hn]

theorem countP_split_k (k : List Val) (seen : List (List Val))
    (hk : k ∉ seen) :
    ∀ rest : List (List Val),
    rest.countP (fun x => decide (x = k)) +
      rest.countP (fun x => decide (x ∉ (k :: seen)))
      = rest.countP (fun x => decide (x ∉ seen)) := by
  intro rest
  induction rest with
  | nil => rfl
  | cons a l ih =>
      rw [List.countP_cons, List.countP_cons, List.countP_cons]
      by_cases h1 : a = k
      · subst h1
        have e1 : decide (a = a) = true := by simp
        have e2 : decide (a ∉ (a :: seen)) = false := by simp
        have e3 : decide (a ∉ seen) = true := by simp [hk]
        rw [e1, e2, e3]
        simp only [if_pos rfl, if_neg Bool.false_ne_true, if_pos rfl]
        omega
      · by_cases h2 : a ∈ seen
        · have e1 : decide (a = k) = false := by simp [h1]
          have e2 : decide (a ∉ (k :: seen)) = false := by
            simp [List.mem_cons, h2]
          have e3 : decide (a ∉ seen) = false := by simp [h2]
          rw [e1, e2, e3]
          simp only [if_neg Bool.false_ne_true]
          omega
        · have e1 : decide (a = k) = false := by simp [h1]
          have e2 : decide (a ∉ (k :: seen)) = true := by
            simp [List.mem_cons, h1, h2]
          have e3 : decide (a ∉ seen) = true := by simp [h2]
          rw [e1, e2, e3]
          simp only [if_neg Bool.false_ne_true, if_pos rfl]
          omega

theorem sum_countP_dedupFirstAux :
    ∀ (ks seen : List (List Val)),
    ((dedupFirstAux seen ks).map
        (fun u => ks.countP (fun k => decide (k = u)))).sum
      = ks.countP (fun k => decide (k ∉ seen)) := by
  intro ks
  induction ks with
  | nil => intro seen; rfl
  | cons k rest ih =>
      intro seen
      by_cases hk : k ∈ seen
      · rw [dedupFirstAux, if_pos hk]
        have hmap : (dedupFirstAux seen rest).map
              (fun u => (k :: rest).countP (fun x => decide (x = u)))
            = (dedupFirstAux seen rest).map
              (fun u => rest.countP (fun x => decide (x = u))) := by
          apply List.map_congr_left
          intro u hu
          have hne : ¬(k = u) := fun he =>
            ((mem_dedupFirstAux rest seen).mp hu).2 (he ▸ hk)
          rw [List.countP_cons]
          simp [hne]
        rw [hmap, ih seen, List.countP_cons]
        simp [hk]
      · rw [dedupFirstAux, if_neg hk]
        rw [List.map_cons, List.sum_cons]
        have hmap : (dedupFirstAux (k :: seen) rest).map
              (fun u => (k :: rest).countP (fun x => decide (x = u)))
            = (dedupFirstAux (k :: seen) rest).map
              (fun u => rest.countP (fun x => decide (x = u))) := by
          apply List.map_congr_left
          intro u hu
          have hne : ¬(k = u) := fun he =>
            ((mem_dedupFirstAux rest (k :: seen)).mp hu).2
              (he ▸ List.mem_cons_self _ _)
          rw [List.countP_cons]
          simp [hne]
        rw [hmap, ih (k :: seen)]
        rw [List.countP_cons, List.countP_cons]
        have e1 : decide (k = k) = true := by simp
        have e2 : decide (k ∉ seen) = true := by simp [hk]
        rw [e1, e2]
        simp only [if_pos rfl]
        have := countP_split_k k seen hk rest
        omega

theorem sum_countP_dedupFirst (ks : List (List Val)) :
    ((dedupFirst ks).map (fun u => ks.countP (fun k => decide (k = u)))).sum
      = ks.length := by
  unfold dedupFirst
  rw [sum_countP_dedupFirstAux ks []]
  have : ks.countP (fun k => decide (k ∉ ([] : List (List Val))))
      = ks.countP (fun _ => true) := by
    apply List.countP_congr
    intro x _
    simp
  rw [this, List.countP_true]

theorem groupMask_count (t : Tafra) (gb : List String) (u : List Val)
    (hcols : ∀ c ∈ gb, (t.col c).length = t.rows)
    (hu : u.length = gb.length) (hne : gb ≠ []) :
    (groupMask t gb u).count true
      = (groupKeys t gb).countP (fun k => decide (k = u)) := by
  rw [groupMask_eq_range_map t gb u hcols hu, groupKeys_eq t gb hne,
    List.count_eq_countP, List.countP_map, List.countP_map]
  apply List.countP_congr
  intro i _
  simp [Function.comp]

/-- C8 (amended): for a nonempty list of group-by columns that all exist in
the table, the per-group row masks form a partition of the row set: masks of
distinct groups are pairwise disjoint, every row index below `rows` is
selected by some group's mask, and the group sizes sum to `rows`. -/
theorem groupby_masks_partition (t : Tafra) (gb : List String)
    (hwf : Wf t) (hcols : ∀ c ∈ gb, t.hasCol c = true) (hne : gb ≠ []) :
    (∀ u ∈ uniqueGroups t gb, ∀ v ∈ uniqueGroups t gb, u ≠ v →
        ∀ i, ¬((groupMask t gb u).getD i false = true ∧
          (groupMask t gb v).getD i false = true)) ∧
    (∀ i, i < t.rows → ∃ u ∈ uniqueGroups t gb,
        (groupMask t gb u).getD i false = true) ∧
    ((uniqueGroups t gb).map (fun u => (groupMask t gb u).count true)).sum
      = t.rows := by
  have hcl : ∀ c ∈ gb, (t.col c).length = t.rows :=
    fun c hc => col_length_of_hasCol hwf (hcols c hc)
  refine ⟨?_, ?_, ?_⟩
  · rintro u hu v hv huv i ⟨h1, h2⟩
    have hi : i < t.rows := by
      by_contra h
      rw [List.getD_eq_default _ _ (by
        rw [groupMask_length t gb u hcl]
        omega)] at h1
      exact Bool.false_ne_true h1
    rw [groupMask_getD t gb u hcl (mem_uniqueGroups_len hu hne) hi] at h1
    rw [groupMask_getD t gb v hcl (mem_uniqueGroups_len hv hne) hi] at h2
    exact huv ((of_decide_eq_true h1).symm.trans (of_decide_eq_true h2))
  · intro i hi
    refine ⟨keyAt t gb i, ?_, ?_⟩
    · apply mem_dedupFirst.mpr
      rw [groupKeys_eq t gb hne]
      exact List.mem_map.mpr ⟨i, List.mem_range.mpr hi, rfl⟩
    · rw [groupMask_getD t gb (keyAt t gb i) hcl (keyAt_length t gb i) hi]
      exact decide_eq_true rfl
  · have hm : (uniqueGroups t gb).map
        (fun u => (groupMask t gb u).count true)
        = (uniqueGroups t gb).map
          (fun u => (groupKeys t gb).countP (fun k => decide (k = u))) :=
      List.map_congr_left (fun u hu =>
        groupMask_count t gb u hcl (mem_uniqueGroups_len hu hne) hne)
    rw [hm]
    unfold uniqueGroups
    have hs := sum_countP_dedupFirst (groupKeys t gb)
    rw [hs]
    rw [groupKeys_eq t gb hne, List.length_map, List.length_range]

/-- C8 (counterexample): with the empty group-by list on a one-row table
there are no groups at all, so the masks do not cover the row set and the
group sizes sum to 0, not `rows` — the claim fails for the empty column
list, which trivially "exists in" the table. -/
theorem groupby_partition_empty_gb_false :
    ((uniqueGroups (Tafra.mk [("x", [Val.i 1])]) []).map
        (fun u => (groupMask (Tafra.mk [("x", [Val.i 1])]) [] u).count true)).sum
      ≠ (Tafra.mk [("x", [Val.i 1])]).rows ∧
    ¬ ∃ u ∈ uniqueGroups (Tafra.mk [("x", [Val.i 1])]) [],
        (groupMask (Tafra.mk [("x", [Val.i 1])]) [] u).getD 0 false = true := by
  exact ⟨by decide, by decide⟩

/-- Witness for C8's amended theorem on the example table. -/
theorem groupby_masks_partition_witness :
    (∀ u ∈ uniqueGroups exampleTafra ["y", "z"],
      ∀ v ∈ uniqueGroups exampleTafra ["y", "z"], u ≠ v →
        ∀ i, ¬((groupMask exampleTafra ["y", "z"] u).getD i false = true ∧
          (groupMask exampleTafra ["y", "z"] v).getD i false = true)) ∧
    (∀ i, i < exampleTafra.rows → ∃ u ∈ uniqueGroups exampleTafra ["y", "z"],
        (groupMask exampleTafra ["y", "z"] u).getD i false = true) ∧
    ((uniqueGroups exampleTafra ["y", "z"]).map
        (fun u => (groupMask exampleTafra ["y", "z"] u).count true)).sum
      = exampleTafra.rows := by
  refine groupby_masks_partition exampleTafra ["y", "z"] ?_ ?_ (by decide)
  · intro p hp
    fin_cases hp <;> rfl
  · intro c hc
    fin_cases hc <;> rfl

/-! ## Transform preserves rows and group-by columns (C6) -/

theorem mem_dictSet {α : Type} {d : List (String × α)} {k : String} {v : α} :
    ∀ p ∈ dictSet d k v, p = (k, v) ∨ p ∈ d := by
  induction d with
  | nil =>
      intro p hp
      cases hp with
      | head => exact Or.inl rfl
      | tail _ h => cases h
  | cons q rest ih =>
      obtain ⟨k', v'⟩ := q
      intro p hp
      by_cases hq : k' = k
      · rw [dictSet, if_pos hq] at hp
        cases hp with
        | head => exact Or.inl (by rw [hq])
        | tail _ h => exact Or.inr (List.mem_cons_of_mem _ h)
      · rw [dictSet, if_neg hq] at hp
        cases hp with
        | head => exact Or.inr (List.mem_cons_self _ _)
        | tail _ h =>
            rcases ih p h with h' | h'
            · exact Or.inl h'
            · exact Or.inr (List.mem_cons_of_mem _ h')

theorem dictSet_ne_nil {α : Type} (d : List (String × α)) (k : String)
    (v : α) : dictSet d k v ≠ [] := by
  cases d with
  | nil => exact fun h => List.cons_ne_nil _ _ h
  | cons q rest =>
      obtain ⟨k', v'⟩ := q
      unfold dictSet
      by_cases hq : k' = k
      · rw [if_pos hq]; exact List.cons_ne_nil _ _
      · rw [if_neg hq]; exact List.cons_ne_nil _ _

theorem dictGet?_dictSet_self {α : Type} (d : List (String × α)) (k : String)
    (v : α) : dictGet? (dictSet d k v) k = some v := by
  induction d with
  | nil => simp [dictSet, dictGet?]
  | cons q rest ih =>
      obtain ⟨k', v'⟩ := q
      by_cases hq : k' = k
      · rw [dictSet, if_pos hq, dictGet?, if_pos hq]
      · rw [dictSet, if_neg hq, dictGet?, if_neg hq]
        exact ih

theorem dictGet?_dictSet_ne {α : Type} (d : List (String × α)) {k c : String}
    (v : α) (h : k ≠ c) : dictGet? (dictSet d k v) c = dictGet? d c := by
  induction d with
  | nil => simp [dictSet, dictGet?, h]
  | cons q rest ih =>
      obtain ⟨k', v'⟩ := q
      by_cases hq : k' = k
      · rw [dictSet, if_pos hq, dictGet?, dictGet?]
        have : ¬(k' = c) := by rw [hq]; exact h
        rw [if_neg this, if_neg this]
      · rw [dictSet, if_neg hq, dictGet?, dictGet?]
        by_cases hc : k' = c
        · rw [if_pos hc, if_pos hc]
        · rw [if_neg hc, if_neg hc]
          exact ih

theorem dictGet?_dictModify_self {α : Type} (d : List (String × α))
    (k : String) (f : α → α) :
    dictGet? (dictModify d k f) k = (dictGet? d k).map f := by
  induction d with
  | nil => rfl
  | cons q rest ih =>
      obtain ⟨k', v'⟩ := q
      by_cases hq : k' = k
      · rw [dictModify, if_pos hq, dictGet?, if_pos hq, dictGet?, if_pos hq]
        rfl
      · rw [dictModify, if_neg hq, dictGet?, if_neg hq, dictGet?, if_neg hq]
        exact ih

theorem dictGet?_dictModify_ne {α : Type} (d : List (String × α))
    {k c : String} (f : α → α) (h : k ≠ c) :
    dictGet? (dictModify d k f) c = dictGet? d c := by
  induction d with
  | nil => rfl
  | cons q rest ih =>
      obtain ⟨k', v'⟩ := q
      by_cases hq : k' = k
      · have : ¬(k' = c) := by rw [hq]; exact h
        rw [dictModify, if_pos hq, dictGet?, if_neg this, dictGet?, if_neg this]
      · rw [dictModify, if_neg hq, dictGet?, dictGet?]
        by_cases hc : k' = c
        · rw [if_pos hc, if_pos hc]
        · rw [if_neg hc, if_neg hc]
          exact ih

theorem keys_dictModify {α : Type} (d : List (String × α)) (k : String)
    (f : α → α) : (dictModify d k f).map (fun p => p.1) = d.map (fun p => p.1) := by
  induction d with
  | nil => rfl
  | cons q rest ih =>
      obtain ⟨k', v'⟩ := q
      by_cases hq : k' = k
      · rw [dictModify, if_pos hq]
        rfl
      · rw [dictModify, if_neg hq]
        simp only [List.map_cons]
        rw [ih]


theorem pred_dictModify {α : Type} {P : α → Prop} {d : List (String × α)}
    {k : String} {f : α → α} (hd : ∀ p ∈ d, P p.2)
    (hf : ∀ v, P v → P (f v)) : ∀ p ∈ dictModify d k f, P p.2 := by
  induction d with
  | nil => intro p hp; cases hp
  | cons q rest ih =>
      obtain ⟨k', v'⟩ := q
      intro p hp
      by_cases hq : k' = k
      · rw [dictModify, if_pos hq] at hp
        cases hp with
        | head => exact hf v' (hd (k', v') (List.mem_cons_self _ _))
        | tail _ h => exact hd p (List.mem_cons_of_mem _ h)
      · rw [dictModify, if_neg hq] at hp
        cases hp with
        | head => exact hd (k', v') (List.mem_cons_self _ _)
        | tail _ h =>
            exact ih (fun p' hp' => hd p' (List.mem_cons_of_mem _ hp')) p h

theorem maskScatter_length :
    ∀ (m : List Bool) (d s : List Val), (maskScatter m d s).length = d.length := by
  intro m
  induction m with
  | nil => intro d s; cases d <;> cases s <;> rfl
  | cons b m' ih =>
      intro d s
      cases b
      · cases d with
        | nil => rfl
        | cons x d' =>
            show (x :: maskScatter m' d' s).length = (x :: d').length
            simp [ih]
      · cases d with
        | nil => rfl
        | cons x d' =>
            cases s with
            | nil =>
                show (x :: maskScatter m' d' []).length = (x :: d').length
                simp [ih]
            | cons y s' =>
                show (y :: maskScatter m' d' s').length = (x :: d').length
                simp [ih]

theorem maskScatterScalar_length (m : List Bool) (d : List Val) (v : Val) :
    (maskScatterScalar m d v).length = min m.length d.length := by
  unfold maskScatterScalar
  rw [List.length_zipWith]

theorem maskGather_cons_true (w : List Bool) (s : Val) (src : List Val) :
    maskGather (true :: w) (s :: src) = s :: maskGather w src := rfl

theorem maskGather_cons_false (w : List Bool) (s : Val) (src : List Val) :
    maskGather (false :: w) (s :: src) = maskGather w src := rfl

theorem maskScatter_gather_getD :
    ∀ (w : List Bool) (arr src : List Val), arr.length = w.length →
    src.length = w.length → ∀ i, i < w.length →
    (maskScatter w arr (maskGather w src)).getD i (Val.i 0)
      = if w.getD i false = true then src.getD i (Val.i 0)
        else arr.getD i (Val.i 0) := by
  intro w
  induction w with
  | nil => intro arr src _ _ i hi; cases hi
  | cons b w' ih =>
      intro arr src harr hsrc i hi
      cases arr with
      | nil => cases harr
      | cons a arr' =>
          cases src with
          | nil => cases hsrc
          | cons s src' =>
              have harr' : arr'.length = w'.length := by simpa using harr
              have hsrc' : src'.length = w'.length := by simpa using hsrc
              cases b
              · rw [maskGather_cons_false]
                show (a :: maskScatter w' arr' (maskGather w' src')).getD i _
                  = _
                cases i with
                | zero => rfl
                | succ i' =>
                    have hi' : i' < w'.length := by simpa using hi
                    show (maskScatter w' arr' (maskGather w' src')).getD i' _ = _
                    rw [ih arr' src' harr' hsrc' i' hi']
                    rfl
              · rw [maskGather_cons_true]
                show (s :: maskScatter w' arr' (maskGather w' src')).getD i _
                  = _
                cases i with
                | zero => rfl
                | succ i' =>
                    have hi' : i' < w'.length := by simpa using hi
                    show (maskScatter w' arr' (maskGather w' src')).getD i' _ = _
                    rw [ih arr' src' harr' hsrc' i' hi']
                    rfl

theorem maskScatterScalar_getD {w : List Bool} {dst : List Val} {v : Val}
    {i : Nat} (hd : i < dst.length) (hw : i < w.length) :
    (maskScatterScalar w dst v).getD i (Val.i 0)
      = if w.getD i false = true then v else dst.getD i (Val.i 0) := by
  have hz : i < (maskScatterScalar w dst v).length := by
    rw [maskScatterScalar_length]
    exact Nat.lt_min.mpr ⟨hw, hd⟩
  unfold maskScatterScalar at hz ⊢
  rw [List.getD_eq_getElem _ _ hz, List.getElem_zipWith,
    List.getD_eq_getElem _ _ hw, List.getD_eq_getElem _ _ hd]
  cases hb : w[i] <;> rfl

/-- Row `i`'s entry of result column `c` holds the input value of column `c`
at row `i` (whenever the column is present in the result dict). -/
def Good (t : Tafra) (c : String) (i : Nat)
    (res : List (String × List Val)) : Prop :=
  ∀ arr, dictGet? res c = some arr →
    arr.getD i (Val.i 0) = (t.col c).getD i (Val.i 0)

theorem foldl_dictSet_pred {P : List Val → Prop}
    (alloc : String → String → List Val) :
    ∀ (pairs : List (String × String)) (d : List (String × List Val)),
    (∀ q ∈ pairs, P (alloc q.1 q.2)) → (∀ p ∈ d, P p.2) →
    ∀ p ∈ pairs.foldl (fun d q => dictSet d q.1 (alloc q.1 q.2)) d, P p.2 := by
  intro pairs
  induction pairs with
  | nil => exact fun d _ hd => hd
  | cons q rest ih =>
      intro d hq hd
      rw [List.foldl_cons]
      refine ih (dictSet d q.1 (alloc q.1 q.2))
        (fun q' hq' => hq q' (List.mem_cons_of_mem _ hq')) ?_
      intro p hp
      rcases mem_dictSet p hp with h | h
      · rw [h]
        exact hq q (List.mem_cons_self _ _)
      · exact hd p h

theorem foldl_dictSet_ne_nil (alloc : String → String → List Val) :
    ∀ (pairs : List (String × String)) (d : List (String × List Val)),
    (pairs ≠ [] ∨ d ≠ []) →
    pairs.foldl (fun d q => dictSet d q.1 (alloc q.1 q.2)) d ≠ [] := by
  intro pairs
  induction pairs with
  | nil =>
      intro d h
      rcases h with h | h
      · exact absurd rfl h
      · exact h
  | cons q rest ih =>
      intro d _
      rw [List.foldl_cons]
      exact ih _ (Or.inr (dictSet_ne_nil _ _ _))

theorem foldl_dictSet_mem_keys (alloc : String → String → List Val) :
    ∀ (pairs : List (String × String)) (d : List (String × List Val))
      (c : String),
    (c ∈ pairs.map (fun q => q.1) ∨ (dictGet? d c).isSome = true) →
    (dictGet? (pairs.foldl (fun d q => dictSet d q.1 (alloc q.1 q.2)) d)
      c).isSome = true := by
  intro pairs
  induction pairs with
  | nil =>
      intro d c h
      rcases h with h | h
      · cases h
      · exact h
  | cons q rest ih =>
      intro d c h
      rw [List.foldl_cons]
      by_cases hq : q.1 = c
      · refine ih _ c (Or.inr ?_)
        rw [hq, dictGet?_dictSet_self]
        rfl
      · rcases h with h | h
        · cases h with
          | head => exact absurd rfl hq
          | tail _ h' => exact ih _ c (Or.inl h')
        · refine ih _ c (Or.inr ?_)
          rw [dictGet?_dictSet_ne _ _ hq]
          exact h

theorem zip_map_snd :
    ∀ (u : List Val) (gb : List String), u.length = gb.length →
    (u.zip gb).map (fun vc => vc.2) = gb := by
  intro u
  induction u with
  | nil =>
      intro gb h
      have hgb : gb = [] := by
        cases gb with
        | nil => rfl
        | cons c gbt => cases h
      rw [hgb]
      rfl
  | cons v u' ih =>
      intro gb h
      cases gb with
      | nil => cases h
      | cons c gbt =>
          have h' : u'.length = gbt.length := by simpa using h
          show (v, c).2 :: (u'.zip gbt).map (fun vc => vc.2) = c :: gbt
          rw [ih gbt h']

theorem keyAt_zip_prop (t : Tafra) (i : Nat) :
    ∀ gb : List String, ∀ vc ∈ (keyAt t gb i).zip gb,
    (t.col vc.2).getD i (Val.i 0) = vc.1 := by
  intro gb
  induction gb with
  | nil => intro vc hvc; cases hvc
  | cons c gbt ih =>
      intro vc hvc
      have hkey : keyAt t (c :: gbt) i
          = (t.col c).getD i (Val.i 0) :: keyAt t gbt i := rfl
      rw [hkey] at hvc
      cases hvc with
      | head => rfl
      | tail _ h => exact ih vc h

theorem transformFold_char (t : Tafra) :
    ∀ (pairs : List (Val × String)) (m : List Bool)
      (res : List (String × List Val)),
    m.length = t.rows →
    (∀ vc ∈ pairs, (t.col vc.2).length = t.rows) →
    (∀ p ∈ res, (p.2 : List Val).length = t.rows) →
    ((pairs.foldl (transformFoldF t) (m, res)).1
        = pairs.foldl (fun m' vc => andMask m' (colEqMask t vc.2 vc.1)) m) ∧
    ((pairs.foldl (transformFoldF t) (m, res)).2.map (fun p => p.1)
        = res.map (fun p => p.1)) ∧
    (∀ p ∈ (pairs.foldl (transformFoldF t) (m, res)).2,
        (p.2 : List Val).length = t.rows) ∧
    (∀ c i, i < t.rows → Good t c i res →
        Good t c i (pairs.foldl (transformFoldF t) (m, res)).2) ∧
    (∀ i, i < t.rows → m.getD i false = true →
        (∀ vc ∈ pairs, (t.col vc.2).getD i (Val.i 0) = vc.1) →
        ∀ c ∈ pairs.map (fun vc => vc.2),
          Good t c i (pairs.foldl (transformFoldF t) (m, res)).2) := by
  intro pairs
  induction pairs with
  | nil =>
      intro m res hm _ hres
      refine ⟨rfl, rfl, hres, fun c i _ h => h, ?_⟩
      intro i _ _ _ c hc
      cases hc
  | cons vc rest ih =>
      intro m res hm hpairs hres
      have hcol : (t.col vc.2).length = t.rows :=
        hpairs vc (List.mem_cons_self _ _)
      have hw : (andMask m (colEqMask t vc.2 vc.1)).length = t.rows := by
        unfold andMask colEqMask
        rw [List.length_zipWith, List.length_map, hm, hcol, Nat.min_self]
      have hstep : (List.foldl (transformFoldF t) (m, res) (vc :: rest))
          = List.foldl (transformFoldF t)
            (andMask m (colEqMask t vc.2 vc.1),
              dictModify res vc.2
                (fun arr => maskScatter (andMask m (colEqMask t vc.2 vc.1)) arr
                  (maskGather (andMask m (colEqMask t vc.2 vc.1)) (t.col vc.2))))
            rest := rfl
      have hres₁ : ∀ p ∈ dictModify res vc.2
          (fun arr => maskScatter (andMask m (colEqMask t vc.2 vc.1)) arr
            (maskGather (andMask m (colEqMask t vc.2 vc.1)) (t.col vc.2))),
          (p.2 : List Val).length = t.rows :=
        pred_dictModify (P := fun v : List Val => v.length = t.rows) hres
          (fun v hv => by
            show (maskScatter _ v _).length = t.rows
            rw [maskScatter_length]
            exact hv)
      obtain ⟨ih1, ih2, ih3, ih4, ih5⟩ := ih
        (andMask m (colEqMask t vc.2 vc.1))
        (dictModify res vc.2
          (fun arr => maskScatter (andMask m (colEqMask t vc.2 vc.1)) arr
            (maskGather (andMask m (colEqMask t vc.2 vc.1)) (t.col vc.2))))
        hw (fun w hw' => hpairs w (List.mem_cons_of_mem _ hw')) hres₁
      have hGoodStep : ∀ c i, i < t.rows → Good t c i res →
          Good t c i (dictModify res vc.2
            (fun arr => maskScatter (andMask m (colEqMask t vc.2 vc.1)) arr
              (maskGather (andMask m (colEqMask t vc.2 vc.1)) (t.col vc.2)))) := by
        intro c i hi hg
        by_cases hc : vc.2 = c
        · subst hc
          intro arr' harr'
          rw [dictGet?_dictModify_self] at harr'
          cases hv : dictGet? res vc.2 with
          | none => rw [hv] at harr'; cases harr'
          | some arr =>
              rw [hv] at harr'
              have harr : arr.length = t.rows :=
                hres (vc.2, arr) (dictGet?_mem hv)
              cases harr'
              rw [maskScatter_gather_getD _ arr (t.col vc.2)
                (by rw [harr, hw]) (by rw [hcol, hw]) i (by rw [hw]; exact hi)]
              by_cases hwi : (andMask m (colEqMask t vc.2 vc.1)).getD i false = true
              · rw [if_pos hwi]
              · rw [if_neg hwi]
                exact hg arr hv
        · intro arr' harr'
          rw [dictGet?_dictModify_ne _ _ hc] at harr'
          exact hg arr' harr'
      refine ⟨?_, ?_, ?_, ?_, ?_⟩
      · rw [hstep, ih1, List.foldl_cons]
      · rw [hstep, ih2, keys_dictModify]
      · rw [hstep]
        exact ih3
      · intro c i hi hg
        rw [hstep]
        exact ih4 c i hi (hGoodStep c i hi hg)
      · intro i hi hmi hprop c hc
        have hv1 : (t.col vc.2).getD i (Val.i 0) = vc.1 :=
          hprop vc (List.mem_cons_self _ _)
        have hwi : (andMask m (colEqMask t vc.2 vc.1)).getD i false = true := by
          unfold andMask colEqMask
          rw [zipWith_and_getD (hm ▸ hi)
            (by rw [List.length_map]; exact hcol ▸ hi)]
          rw [map_beq_getD (hcol ▸ hi), hmi, hv1]
          simp
        rw [hstep]
        rw [List.map_cons] at hc
        cases hc with
        | head =>
          -- c = vc.2: the write establishes Good, the rest preserves it
          refine ih4 vc.2 i hi ?_
          intro arr' harr'
          rw [dictGet?_dictModify_self] at harr'
          cases hv : dictGet? res vc.2 with
          | none => rw [hv] at harr'; cases harr'
          | some arr =>
              rw [hv] at harr'
              have harr : arr.length = t.rows :=
                hres (vc.2, arr) (dictGet?_mem hv)
              cases harr'
              rw [maskScatter_gather_getD _ arr (t.col vc.2)
                (by rw [harr, hw]) (by rw [hcol, hw]) i (by rw [hw]; exact hi)]
              rw [if_pos hwi]
        | tail _ hc' =>
          exact ih5 i hi hwi
            (fun w hw' => hprop w (List.mem_cons_of_mem _ hw')) c hc'

theorem aggFold_char (t : Tafra) (w : List Bool) (hw : w.length = t.rows) :
    ∀ (aggs : List AggT) (res : List (String × List Val)),
    (∀ p ∈ res, (p.2 : List Val).length = t.rows) →
    ((aggs.foldl (fun r a => dictModify r a.1 (fun arr =>
        maskScatterScalar w arr (a.2.1 (maskGather w (t.col a.2.2))))) res).map
      (fun p => p.1) = res.map (fun p => p.1)) ∧
    (∀ p ∈ aggs.foldl (fun r a => dictModify r a.1 (fun arr =>
        maskScatterScalar w arr (a.2.1 (maskGather w (t.col a.2.2))))) res,
      (p.2 : List Val).length = t.rows) ∧
    (∀ c, c ∉ aggs.map (fun a => a.1) →
      dictGet? (aggs.foldl (fun r a => dictModify r a.1 (fun arr =>
        maskScatterScalar w arr (a.2.1 (maskGather w (t.col a.2.2))))) res) c
        = dictGet? res c) := by
  intro aggs
  induction aggs with
  | nil => exact fun res hres => ⟨rfl, hres, fun c _ => rfl⟩
  | cons a rest ih =>
      intro res hres
      have hres₁ : ∀ p ∈ dictModify res a.1 (fun arr =>
          maskScatterScalar w arr (a.2.1 (maskGather w (t.col a.2.2)))),
          (p.2 : List Val).length = t.rows :=
        pred_dictModify (P := fun v : List Val => v.length = t.rows) hres
          (fun v hv => by
            show (maskScatterScalar w v _).length = t.rows
            rw [maskScatterScalar_length, hw, hv, Nat.min_self])
      obtain ⟨ih1, ih2, ih3⟩ := ih (dictModify res a.1 (fun arr =>
        maskScatterScalar w arr (a.2.1 (maskGather w (t.col a.2.2))))) hres₁
      refine ⟨?_, ?_, ?_⟩
      · rw [List.foldl_cons, ih1, keys_dictModify]
      · rw [List.foldl_cons]
        exact ih2
      · intro c hc
        rw [List.map_cons] at hc
        have hc1 : a.1 ≠ c := fun he => hc (he ▸ List.mem_cons_self _ _)
        have hc2 : c ∉ rest.map (fun a => a.1) :=
          fun he => hc (List.mem_cons_of_mem _ he)
        rw [List.foldl_cons, ih3 c hc2, dictGet?_dictModify_ne _ _ hc1]

theorem transformStep_preserves (t : Tafra) (gb : List String)
    (agg : List AggT) (res : List (String × List Val)) (u : List Val)
    (hgb : ∀ c ∈ gb, (t.col c).length = t.rows)
    (hres : ∀ p ∈ res, (p.2 : List Val).length = t.rows) :
    ((transformStep t gb agg res u).map (fun p => p.1)
        = res.map (fun p => p.1)) ∧
    (∀ p ∈ transformStep t gb agg res u, (p.2 : List Val).length = t.rows) ∧
    (∀ c i, i < t.rows → c ∉ agg.map (fun a => a.1) → Good t c i res →
        Good t c i (transformStep t gb agg res u)) := by
  have hpairs : ∀ vc ∈ u.zip gb, (t.col vc.2).length = t.rows :=
    fun vc hvc => hgb vc.2 (List.of_mem_zip hvc).2
  obtain ⟨f1, f2, f3, f4, _⟩ := transformFold_char t (u.zip gb)
    (fullMask t.rows) res (List.length_replicate _ _) hpairs hres
  have hwlen : ((u.zip gb).foldl (transformFoldF t)
      (fullMask t.rows, res)).1.length = t.rows := by
    rw [f1]
    exact (foldAnd_char t (u.zip gb) (fullMask t.rows)
      (List.length_replicate _ _) hpairs).1
  obtain ⟨a1, a2, a3⟩ := aggFold_char t _ hwlen agg _ f3
  have hstep : transformStep t gb agg res u
      = agg.foldl (fun r a => dictModify r a.1 (fun arr =>
          maskScatterScalar
            ((u.zip gb).foldl (transformFoldF t) (fullMask t.rows, res)).1 arr
            (a.2.1 (maskGather
              ((u.zip gb).foldl (transformFoldF t) (fullMask t.rows, res)).1
              (t.col a.2.2)))))
        ((u.zip gb).foldl (transformFoldF t) (fullMask t.rows, res)).2 := rfl
  refine ⟨?_, ?_, ?_⟩
  · rw [hstep, a1, f2]
  · rw [hstep]
    exact a2
  · intro c i hi hcagg hg
    intro arr harr
    rw [hstep, a3 c hcagg] at harr
    exact f4 c i hi hg arr harr

theorem transformStep_hit (t : Tafra) (gb : List String) (agg : List AggT)
    (res : List (String × List Val)) (i : Nat) (hi : i < t.rows)
    (hgb : ∀ c ∈ gb, (t.col c).length = t.rows)
    (hres : ∀ p ∈ res, (p.2 : List Val).length = t.rows)
    {c : String} (hc : c ∈ gb) (hcagg : c ∉ agg.map (fun a => a.1)) :
    Good t c i (transformStep t gb agg res (keyAt t gb i)) := by
  have hpairs : ∀ vc ∈ (keyAt t gb i).zip gb, (t.col vc.2).length = t.rows :=
    fun vc hvc => hgb vc.2 (List.of_mem_zip hvc).2
  obtain ⟨f1, _, f3, _, f5⟩ := transformFold_char t ((keyAt t gb i).zip gb)
    (fullMask t.rows) res (List.length_replicate _ _) hpairs hres
  have hwlen : (((keyAt t gb i).zip gb).foldl (transformFoldF t)
      (fullMask t.rows, res)).1.length = t.rows := by
    rw [f1]
    exact (foldAnd_char t ((keyAt t gb i).zip gb) (fullMask t.rows)
      (List.length_replicate _ _) hpairs).1
  obtain ⟨_, _, a3⟩ := aggFold_char t _ hwlen agg _ f3
  have hstep : transformStep t gb agg res (keyAt t gb i)
      = agg.foldl (fun r a => dictModify r a.1 (fun arr =>
          maskScatterScalar
            (((keyAt t gb i).zip gb).foldl (transformFoldF t)
              (fullMask t.rows, res)).1 arr
            (a.2.1 (maskGather
              (((keyAt t gb i).zip gb).foldl (transformFoldF t)
                (fullMask t.rows, res)).1
              (t.col a.2.2)))))
        (((keyAt t gb i).zip gb).foldl (transformFoldF t)
          (fullMask t.rows, res)).2 := rfl
  have hmi : (fullMask t.rows).getD i false = true := by
    unfold fullMask
    rw [List.getD_eq_getElem _ _ (by rw [List.length_replicate]; exact hi),
      List.getElem_replicate]
  have hmem : c ∈ ((keyAt t gb i).zip gb).map (fun vc => vc.2) := by
    rw [zip_map_snd (keyAt t gb i) gb (keyAt_length t gb i)]
    exact hc
  have hinner := f5 i hi hmi (keyAt_zip_prop t i gb) c hmem
  intro arr harr
  rw [hstep, a3 c hcagg] at harr
  exact hinner arr harr

theorem transformOuter (t : Tafra) (gb : List String) (agg : List AggT)
    (hgb : ∀ c ∈ gb, (t.col c).length = t.rows)
    (hdisj : ∀ a ∈ agg, (a.1 : String) ∉ gb) :
    ∀ (us : List (List Val)) (res : List (String × List Val)),
    (∀ p ∈ res, (p.2 : List Val).length = t.rows) →
    ((us.foldl (fun r u => transformStep t gb agg r u) res).map (fun p => p.1)
        = res.map (fun p => p.1)) ∧
    (∀ p ∈ us.foldl (fun r u => transformStep t gb agg r u) res,
        (p.2 : List Val).length = t.rows) ∧
    (∀ c, c ∈ gb → ∀ i, i < t.rows →
        (keyAt t gb i ∈ us ∨ Good t c i res) →
        Good t c i (us.foldl (fun r u => transformStep t gb agg r u) res)) := by
  intro us
  induction us with
  | nil =>
      intro res hres
      refine ⟨rfl, hres, ?_⟩
      intro c _ i _ h
      rcases h with h | h
      · cases h
      · exact h
  | cons u us' ih =>
      intro res hres
      have hcagg : ∀ c ∈ gb, c ∉ agg.map (fun a => a.1) := by
        intro c hcgb hmem
        obtain ⟨a, ha, he⟩ := List.mem_map.mp hmem
        exact hdisj a ha (he ▸ hcgb)
      obtain ⟨s1, s2, s3⟩ := transformStep_preserves t gb agg res u hgb hres
      obtain ⟨i1, i2, i3⟩ := ih (transformStep t gb agg res u) s2
      refine ⟨?_, ?_, ?_⟩
      · rw [List.foldl_cons, i1, s1]
      · rw [List.foldl_cons]
        exact i2
      · intro c hcgb i hi h
        rw [List.foldl_cons]
        rcases h with h | h
        · cases h with
          | head =>
              exact i3 c hcgb i hi (Or.inr
                (transformStep_hit t gb agg res i hi hgb hres hcgb
                  (hcagg c hcgb)))
          | tail _ h' => exact i3 c hcgb i hi (Or.inl h')
        · exact i3 c hcgb i hi
            (Or.inr (s3 c i hi (hcagg c hcgb) h))

/-- C6 (counterexample): as stated, the claim fails twice.  (i) With
aggregation `{'y': (fn, 'y')}` whose output name collides with the group-by
column `y`, the aggregation write overwrites the group-by values: on
`t = {y: [1, 2]}` with `fn = const 99`, `transform(['y'], ...)` returns
`y = [99, 99]`.  (ii) `transform([], {})` on a one-row table returns an
empty Tafra with `rows = 0`, not 1. -/
theorem transform_claim_false :
    (transformRun (Tafra.mk [("y", [Val.i 1, Val.i 2])]) ["y"]
        [("y", (fun _ => Val.i 99), "y")] (zeroAlloc 2)).col "y"
      ≠ (Tafra.mk [("y", [Val.i 1, Val.i 2])]).col "y" ∧
    (transformRun (Tafra.mk [("x", [Val.i 1])]) [] [] (zeroAlloc 1)).rows
      ≠ (Tafra.mk [("x", [Val.i 1])]).rows := by
  exact ⟨by decide, by decide⟩

/-- C6 (amended): provided the group-by columns and aggregation source
columns exist, the aggregation output names avoid the group-by columns, and
the group-by list and aggregation are not both empty, `Transform` preserves
the row count and each group-by column exactly. -/
theorem transform_preserves (t : Tafra) (gb : List String) (agg : List AggT)
    (alloc : String → String → List Val)
    (hwf : Wf t)
    (hgbc : ∀ c ∈ gb, t.hasCol c = true)
    (hsrc : ∀ a ∈ agg, t.hasCol a.2.2 = true)
    (halloc : ∀ r c, (alloc r c).length = (t.col c).length)
    (hdisj : ∀ a ∈ agg, (a.1 : String) ∉ gb)
    (hne : ¬(gb = [] ∧ agg = [])) :
    (transformRun t gb agg alloc).rows = t.rows ∧
    ∀ c ∈ gb, (transformRun t gb agg alloc).col c = t.col c := by
  have hgb : ∀ c ∈ gb, (t.col c).length = t.rows :=
    fun c hc => col_length_of_hasCol hwf (hgbc c hc)
  have hsrcl : ∀ a ∈ agg, (t.col a.2.2).length = t.rows :=
    fun a ha => col_length_of_hasCol hwf (hsrc a ha)
  have hinitInv : ∀ p ∈ result_factory gb agg alloc,
      (p.2 : List Val).length = t.rows := by
    refine foldl_dictSet_pred (P := fun v : List Val => v.length = t.rows)
      alloc _ [] ?_ (fun p hp => absurd hp (List.not_mem_nil p))
    intro q hq
    rcases List.mem_append.mp hq with h | h
    · obtain ⟨c, hc, rfl⟩ := List.mem_map.mp h
      show (alloc c c).length = t.rows
      rw [halloc, hgb c hc]
    · obtain ⟨a, ha, rfl⟩ := List.mem_map.mp h
      show (alloc a.1 a.2.2).length = t.rows
      rw [halloc, hsrcl a ha]
  obtain ⟨o1, o2, o3⟩ := transformOuter t gb agg hgb hdisj
    (uniqueGroups t gb) (result_factory gb agg alloc) hinitInv
  have hrun : transformRun t gb agg alloc
      = Tafra.mk ((uniqueGroups t gb).foldl
          (fun r u => transformStep t gb agg r u)
          (result_factory gb agg alloc)) := rfl
  have hinitne : result_factory gb agg alloc ≠ [] := by
    have hne' : (gb.map (fun c => (c, c))) ++
        agg.map (fun a => (a.1, a.2.2)) ≠ [] := by
      intro h
      obtain ⟨h1, h2⟩ := List.append_eq_nil.mp h
      exact hne ⟨List.map_eq_nil_iff.mp h1, List.map_eq_nil_iff.mp h2⟩
    exact foldl_dictSet_ne_nil alloc _ [] (Or.inl hne')
  have hfinalne : (uniqueGroups t gb).foldl
      (fun r u => transformStep t gb agg r u)
      (result_factory gb agg alloc) ≠ [] := by
    intro h
    apply hinitne
    have h1 := o1
    rw [h] at h1
    exact List.map_eq_nil_iff.mp h1.symm
  constructor
  · rw [hrun]
    cases hfe : (uniqueGroups t gb).foldl
        (fun r u => transformStep t gb agg r u)
        (result_factory gb agg alloc) with
    | nil => exact absurd hfe hfinalne
    | cons p rest =>
        obtain ⟨c0, v0⟩ := p
        show v0.length = t.rows
        exact o2 (c0, v0) (by rw [hfe]; exact List.mem_cons_self _ _)
  · intro c hcgb
    have hpres : (dictGet? (result_factory gb agg alloc) c).isSome = true := by
      refine foldl_dictSet_mem_keys alloc _ [] c (Or.inl ?_)
      exact List.mem_map.mpr ⟨(c, c),
        List.mem_append.mpr (Or.inl (List.mem_map.mpr ⟨c, hcgb, rfl⟩)), rfl⟩
    obtain ⟨v, hv⟩ := Option.isSome_iff_exists.mp hpres
    have h1 : c ∈ ((uniqueGroups t gb).foldl
        (fun r u => transformStep t gb agg r u)
        (result_factory gb agg alloc)).map (fun p => p.1) := by
      rw [o1]
      exact mem_names_of_dictGet? hv
    obtain ⟨arr, harr⟩ := dictGet?_isSome_of_mem_names h1
    have harrlen : arr.length = t.rows := o2 (c, arr) (dictGet?_mem harr)
    have hgood : ∀ i, i < t.rows →
        arr.getD i (Val.i 0) = (t.col c).getD i (Val.i 0) := by
      intro i hi
      have hkm : keyAt t gb i ∈ uniqueGroups t gb := by
        apply mem_dedupFirst.mpr
        rw [groupKeys_eq t gb (fun h => by rw [h] at hcgb; cases hcgb)]
        exact List.mem_map.mpr ⟨i, List.mem_range.mpr hi, rfl⟩
      exact o3 c hcgb i hi (Or.inl hkm) arr harr
    rw [hrun]
    show (dictGet? ((uniqueGroups t gb).foldl
        (fun r u => transformStep t gb agg r u)
        (result_factory gb agg alloc)) c).getD [] = t.col c
    rw [harr]
    show arr = t.col c
    refine List.ext_getElem (harrlen.trans (hgb c hcgb).symm) ?_
    intro n h1' h2'
    have hn : n < t.rows := harrlen ▸ h1'
    rw [← List.getD_eq_getElem arr (Val.i 0) h1',
      ← List.getD_eq_getElem _ (Val.i 0) h2']
    exact hgood n hn

/-- Witness for C6's amended theorem: transform on the example table with
`{'x': sum}` grouped by `['y','z']`. -/
theorem transform_preserves_witness :
    (transformRun exampleTafra ["y", "z"] [("x", sumVals, "x")]
        (fun _ c => List.replicate (exampleTafra.col c).length (Val.i 0))).rows
      = exampleTafra.rows ∧
    ∀ c ∈ ["y", "z"],
      (transformRun exampleTafra ["y", "z"] [("x", sumVals, "x")]
          (fun _ c => List.replicate (exampleTafra.col c).length (Val.i 0))).col c
        = exampleTafra.col c := by
  refine transform_preserves exampleTafra ["y", "z"] [("x", sumVals, "x")]
    (fun _ c => List.replicate (exampleTafra.col c).length (Val.i 0))
    ?_ ?_ ?_ ?_ ?_ (by simp)
  · intro p hp
    fin_cases hp <;> rfl
  · intro c hc
    fin_cases hc <;> rfl
  · intro a ha
    fin_cases ha
    rfl
  · intro r c
    exact List.length_replicate _ _
  · intro a ha
    fin_cases ha
    decide
